import Mathlib

/-!
Verification of the Device Farm automation script
(`integrationtest/devicefarm/automate_device_farm.py`).

The script is shallowly embedded: paths and file contents are lists of
characters, the local filesystem is an association list from paths to
contents, and each remote-service interaction is modelled by the data the
script observes from it (status strings, artifact listings, raised
exceptions).  Fallible operations return `Option`; a `none` result models a
Python exception propagating out of the function.
-/

namespace DeviceFarm

/-- Paths are plain character lists; the script manipulates them purely by
string concatenation, `os.path.dirname`, `os.path.basename` and
`os.path.join`. -/
abbrev Path := List Char

/-- File contents, also character lists (the script only reads text files). -/
abbrev Content := List Char

/-- The local filesystem: an association list from paths to contents.  A
later entry is shadowed by an earlier one; `fsWrite` prepends after erasing,
so reads always see the latest write. -/
abbrev FS := List (Path × Content)

/-- Lookup of a file, `None` when the path does not exist. -/
def fsRead (fs : FS) (p : Path) : Option Content :=
  (fs.find? (fun e => decide (e.1 = p))).map (fun e => e.2)

/-- Remove a path from the filesystem. -/
def fsErase (fs : FS) (p : Path) : FS :=
  fs.filter (fun e => decide (e.1 ≠ p))

/-- Write (create or overwrite) a file. -/
def fsWrite (fs : FS) (p : Path) (c : Content) : FS :=
  (p, c) :: fsErase fs p

/-- Does `p` start with the character list `pre`?  Used to model Python
string operations. -/
def startsWithL : List Char → List Char → Bool
  | [], _ => true
  | _ :: _, [] => false
  | c :: cs, d :: ds => c == d && startsWithL cs ds

/-- Does `s` end with the character list `suff`?  Models `str.endswith`. -/
def endsWithL (suff s : List Char) : Bool :=
  startsWithL suff.reverse s.reverse

/-- Does `needle` occur as a contiguous substring of `s`?  Models Python
`in` / `str.__contains__`. -/
def containsL (needle : List Char) : List Char → Bool
  | [] => needle.isEmpty
  | c :: rest => startsWithL needle (c :: rest) || containsL needle rest

/-- Model of `os.path.basename`: the part after the last slash. -/
def basenameP (p : Path) : Path :=
  (p.reverse.takeWhile (fun c => c ≠ '/')).reverse

/-- Model of `os.path.dirname`: everything before the last slash, with
trailing slashes stripped unless the head is all slashes (this matches
CPython `posixpath.split`). -/
def dirnameP (p : Path) : Path :=
  let head := (p.reverse.dropWhile (fun c => c ≠ '/')).reverse
  if head.all (fun c => c = '/') then head
  else (head.reverse.dropWhile (fun c => c = '/')).reverse

/-- Model of `os.path.join` for two components (POSIX): an absolute second
component replaces the first, otherwise a single separator is inserted
unless the first component is empty or already ends in a slash. -/
def joinPath (a b : Path) : Path :=
  if b.head? = some '/' then b
  else if a = [] then b
  else if a.getLast? = some '/' then a ++ b
  else a ++ '/' :: b

/-- Word characters of the regex word boundary (Python `\w` restricted to
its ASCII fragment: letters, digits, underscore; the junit reports the
script rewrites are ASCII). -/
def isWordChar (c : Char) : Bool :=
  c.isAlphanum || c = '_'

/-- The literal test name that `unzip_and_copy` rewrites with
`re.sub(r'\bTestShopping\b', ...)`. -/
def tsToken : List Char := "TestShopping".toList

/-- Word-boundary condition to the left of a candidate match: start of the
string, or a non-word character immediately before. -/
def wordBreakBefore : Option Char → Bool
  | none => true
  | some c => !isWordChar c

/-- Word-boundary condition to the right of a candidate match starting at
the head of `s`: end of string, or a non-word character right after the
matched token. -/
def afterBreakOk (s : List Char) : Bool :=
  match (s.drop tsToken.length).head? with
  | none => true
  | some c => !isWordChar c

/-- Does `\bTestShopping\b` match at the head of `s`, where `prev` is the
character immediately preceding `s` in the full subject (none at the start
of the subject)? -/
def tsMatch (prev : Option Char) (s : List Char) : Bool :=
  wordBreakBefore prev && startsWithL tsToken s && afterBreakOk s

/-- Left-to-right scan of `re.sub(r'\bTestShopping\b', repl, ·)`: at each
position either the pattern matches with both boundaries (emit `repl`,
skip the token) or one character is copied.  `fuel` only forces structural
termination; any `fuel ≥ s.length` gives the same result. -/
def reSubTSAux (repl : List Char) : Nat → Option Char → List Char → List Char
  | _, _, [] => []
  | 0, _, s => s
  | fuel + 1, prev, c :: rest =>
    if tsMatch prev (c :: rest) then
      repl ++ reSubTSAux repl fuel (some (((c :: rest).take tsToken.length).getLastD c))
        ((c :: rest).drop tsToken.length)
    else
      c :: reSubTSAux repl fuel (some c) rest

/-- Model of `re.sub(r'\bTestShopping\b', repl, s)` (the replacement text
is inserted literally; the script's replacement contains no backslash
escapes). -/
def reSubTS (repl s : List Char) : List Char :=
  reSubTSAux repl s.length none s

/-- The scanner at its canonical fuel, used to reason about `reSubTS`. -/
def reSubGo (repl : List Char) (prev : Option Char) (s : List Char) : List Char :=
  reSubTSAux repl s.length prev s

/-- The previous-character context after the scanner has emitted the run
`r`: the last character of `r`, or the old context when `r` is empty. -/
def shiftPrev (prev : Option Char) (r : List Char) : Option Char :=
  match r.getLast? with
  | none => prev
  | some d => some d

/-- The replacement label `"AppiumTest " + device_name` built in
`unzip_and_copy`. -/
def appiumLabel (deviceName : List Char) : List Char :=
  "AppiumTest ".toList ++ deviceName

/-- The test-name rewrite performed by `unzip_and_copy` on the copied
report content. -/
def renameTestName (deviceName : List Char) (content : Content) : Content :=
  reSubTS (appiumLabel deviceName) content

/-- Maximal runs of characters of equal wordness, labelled with that
wordness.  Used only to state the specification-side description of the
whole-word rewrite. -/
def splitRuns : List Char → List (Bool × List Char)
  | [] => []
  | c :: rest =>
    (isWordChar c, c :: rest.takeWhile (fun d => isWordChar d == isWordChar c)) ::
      splitRuns (rest.dropWhile (fun d => isWordChar d == isWordChar c))
termination_by s => s.length
decreasing_by
  simp only [List.length_cons]
  exact Nat.lt_succ_of_le (List.dropWhile_sublist _).length_le

/-- Modelled from the spec sentence for the rewrite: replace every
whole-word occurrence of the fixed literal (a maximal word run equal to
`TestShopping`) by the replacement, leaving every other run — in
particular occurrences embedded in longer words — unchanged. -/
def specWholeWordRewrite (repl s : List Char) : List Char :=
  (splitRuns s).flatMap (fun r => if r.1 = true ∧ r.2 = tsToken then repl else r.2)

/-- The fixed report location inside the extracted zip
(`Host_Machine_Files/$DEVICEFARM_LOG_DIR/junitreport.xml`). -/
def junitRelPath : Path := "Host_Machine_Files/$DEVICEFARM_LOG_DIR/junitreport.xml".toList

/-- The skipped marker whose presence makes `unzip_and_copy` return false. -/
def skippedMarker : List Char := "skipped=\"2\"".toList

/-- Model of `zip_ref.extractall(dir)`: the zip is represented by its entry
list (relative path, content); each entry is written under `dir` in entry
order. -/
def extractAll (fs : FS) (dir : Path) (entries : List (Path × Content)) : FS :=
  entries.foldl (fun acc e => fsWrite acc (joinPath dir e.1) e.2) fs

/-- The report location inside the extracted tree:
`os.path.dirname(zip_path) + "/Host_Machine_Files/$DEVICEFARM_LOG_DIR/junitreport.xml"`. -/
def originPathOf (zip_path : Path) : Path :=
  dirnameP zip_path ++ '/' :: junitRelPath

/-- The device name `os.path.basename(os.path.dirname(zip_path))`. -/
def devNameOf (zip_path : Path) : Path :=
  basenameP (dirnameP zip_path)

/-- The renamed report path
`os.path.dirname(origin_path) + "/" + device_name + " appium junitreport.xml"`. -/
def renamePathOf (zip_path : Path) : Path :=
  dirnameP (originPathOf zip_path) ++ '/' :: (devNameOf zip_path ++ " appium junitreport.xml".toList)

/-- The report directory three levels up from the zip file. -/
def reportDirOf (zip_path : Path) : Path :=
  dirnameP (dirnameP (dirnameP zip_path)) ++ "/report/".toList

/-- The destination of `shutil.copy(rename_path, report_path)`: the report
directory joined with the source basename. -/
def resultPathOf (zip_path : Path) : Path :=
  joinPath (reportDirOf zip_path) (basenameP (renamePathOf zip_path))

/-- The filesystem after `zip_ref.extractall(os.path.dirname(zip_path))`. -/
def fs1Of (fs : FS) (entries : List (Path × Content)) (zip_path : Path) : FS :=
  extractAll fs (dirnameP zip_path) entries

/-- The filesystem after `os.rename(origin_path, rename_path)`, where `c`
is the content found at the origin path. -/
def fs2Of (fs : FS) (entries : List (Path × Content)) (zip_path : Path) (c : Content) : FS :=
  fsWrite (fsErase (fs1Of fs entries zip_path) (originPathOf zip_path)) (renamePathOf zip_path) c

/-- The filesystem after `shutil.copy(rename_path, report_path)`, where
`c2` is the content read from the renamed file. -/
def fs3Of (fs : FS) (entries : List (Path × Content)) (zip_path : Path) (c c2 : Content) : FS :=
  fsWrite (fs2Of fs entries zip_path c) (resultPathOf zip_path) c2

/-- The relocation phase of `unzip_and_copy`, before the test-name rewrite:
extract the zip beside itself, rename the report after the device (parent
directory) name, copy it into the `report/` directory three levels up, and
read the copied file.  Returns the filesystem, the copied (original)
content, and the copied file path; `none` models a raised exception (the
report missing from the extracted tree). -/
def relocate (fs : FS) (entries : List (Path × Content)) (zip_path : Path) :
    Option (FS × Content × Path) :=
  match fsRead (fs1Of fs entries zip_path) (originPathOf zip_path) with
  | none => none
  | some c =>
    match fsRead (fs2Of fs entries zip_path c) (renamePathOf zip_path) with
    | none => none
    | some c2 =>
      match fsRead (fs3Of fs entries zip_path c c2) (resultPathOf zip_path) with
      | none => none
      | some content => some (fs3Of fs entries zip_path c c2, content, resultPathOf zip_path)

/-- Model of `unzip_and_copy(zip_path)`: relocation, then the in-place
`TestShopping` rewrite of the copied report, then the validity result —
false exactly when the original (pre-rewrite) content contains the
skipped marker. -/
def unzip_and_copy (fs : FS) (entries : List (Path × Content)) (zip_path : Path) :
    Option (FS × Bool) :=
  match relocate fs entries zip_path with
  | none => none
  | some (fs3, content, result_path) =>
    let modified := renameTestName (devNameOf zip_path) content
    let fs4 := fsWrite fs3 result_path modified
    if containsL skippedMarker content = true then some (fs4, false) else some (fs4, true)

/-- A remote artifact as observed through `list_artifacts`: the fields the
script reads (`type`, `name`, `extension`, the downloaded bytes), plus the
entry list of the artifact when opened as a zip (the model's stand-in for
parsing the downloaded bytes with `zipfile`). -/
structure ArtifactR where
  atype : List Char
  aname : List Char
  ext : List Char
  content : Content
  zipEntries : List (Path × Content)
deriving DecidableEq

/-- A remote test with its three artifact listings, one per category in
the fixed order `FILE`, `SCREENSHOT`, `LOG` queried by the script. -/
structure TestR where
  fileArtifacts : List ArtifactR
  screenshotArtifacts : List ArtifactR
  logArtifacts : List ArtifactR
deriving DecidableEq

/-- A remote suite: its name and its tests. -/
structure SuiteR where
  sname : List Char
  tests : List TestR
deriving DecidableEq

/-- A remote job: its name and its suites. -/
structure JobR where
  jname : List Char
  suites : List SuiteR
deriving DecidableEq

/-- The suite name filter applied by `download_artifacts`. -/
def testsSuiteName : List Char := "Tests Suite".toList

/-- The filename computed for an artifact:
`artifact['type'] + "_" + artifact['name'] + "." + artifact['extension']`. -/
def computedFilename (a : ArtifactR) : List Char :=
  a.atype ++ '_' :: (a.aname ++ '.' :: a.ext)

/-- The suffixes selecting artifacts for download. -/
def dotLogcat : List Char := ".logcat".toList

/-- The zip suffix selecting report archives. -/
def dotZip : List Char := ".zip".toList

/-- State threaded through `download_artifacts`: the filesystem and the
accumulated `logcat_paths`, plus two instrumentation lists recording the
observable actions — `downloads` is the path of every artifact written by
the download request, and `encounters` records, for every artifact passing
the filename filter, its save path, the value of `is_valid_test` when it
was encountered, and whether its filename ends in `.logcat`. -/
structure DAState where
  fs : FS
  logcat_paths : List Path
  downloads : List Path
  encounters : List (Path × Bool × Bool)
deriving DecidableEq

/-- The inner artifact loop of `download_artifacts` for one artifact
listing, with `v` the current `is_valid_test` flag.  Each matching artifact
is saved under the job directory; a `.logcat` file is recorded in
`logcat_paths` only while the flag is true (before the download write, as
in the source); a `.zip` file is extracted with `unzip_and_copy`, whose
result becomes the new flag.  `none` models an exception propagating from
`unzip_and_copy`. -/
def processArtifacts (sp jn : Path) : Bool → DAState → List ArtifactR →
    Option (Bool × DAState)
  | v, st, [] => some (v, st)
  | v, st, a :: rest =>
    let path_to := joinPath sp jn
    let filename := computedFilename a
    if endsWithL dotLogcat filename || endsWithL dotZip filename then
      let asp := joinPath path_to filename
      let lc := endsWithL dotLogcat filename
      let st1 : DAState :=
        { fs := fsWrite st.fs asp a.content
          logcat_paths := if v && lc then st.logcat_paths ++ [asp] else st.logcat_paths
          downloads := st.downloads ++ [asp]
          encounters := st.encounters ++ [(asp, v, lc)] }
      if endsWithL dotZip filename then
        match unzip_and_copy st1.fs a.zipEntries asp with
        | none => none
        | some (fs2, b) => processArtifacts sp jn b { st1 with fs := fs2 } rest
      else processArtifacts sp jn v st1 rest
    else processArtifacts sp jn v st rest

/-- One test of the suite: the three artifact categories are processed in
the fixed order, and `is_valid_test` is re-initialised to `true` at the
start of each category (the assignment sits inside the category loop in the
source); the flag value left by a category is discarded. -/
def processTest (sp jn : Path) (st : DAState) (t : TestR) : Option DAState :=
  match processArtifacts sp jn true st t.fileArtifacts with
  | none => none
  | some (_, st1) =>
    match processArtifacts sp jn true st1 t.screenshotArtifacts with
    | none => none
    | some (_, st2) =>
      match processArtifacts sp jn true st2 t.logArtifacts with
      | none => none
      | some (_, st3) => some st3

/-- All tests of a suite, in order. -/
def processTests (sp jn : Path) : DAState → List TestR → Option DAState
  | st, [] => some st
  | st, t :: ts =>
    match processTest sp jn st t with
    | none => none
    | some st1 => processTests sp jn st1 ts

/-- One suite of a job: only suites named exactly `Tests Suite` are
processed. -/
def processSuite (sp jn : Path) (st : DAState) (s : SuiteR) : Option DAState :=
  if s.sname = testsSuiteName then processTests sp jn st s.tests else some st

/-- All suites of a job, in order. -/
def processSuites (sp jn : Path) : DAState → List SuiteR → Option DAState
  | st, [] => some st
  | st, s :: ss =>
    match processSuite sp jn st s with
    | none => none
    | some st1 => processSuites sp jn st1 ss

/-- One job: its directory name is its `name` field. -/
def processJob (sp : Path) (st : DAState) (j : JobR) : Option DAState :=
  processSuites sp j.jname st j.suites

/-- All jobs of the run, in order. -/
def processJobs (sp : Path) : DAState → List JobR → Option DAState
  | st, [] => some st
  | st, j :: js =>
    match processJob sp st j with
    | none => none
    | some st1 => processJobs sp st1 js

/-- Model of `download_artifacts(jobs_response, save_path)` starting from
filesystem `fs0`: `logcat_paths` starts empty and the nested iteration
follows the literal source order job → suite filter → test → the three
artifact categories.  The source returns `logcat_paths`; the model returns
the full final state so that the filesystem effects and the instrumented
action lists can be reasoned about as well. -/
def download_artifacts (jobs : List JobR) (sp : Path) (fs0 : FS) : Option DAState :=
  processJobs sp { fs := fs0, logcat_paths := [], downloads := [], encounters := [] } jobs

/-- Modelled from the spec sentence for the download filter: the save paths
of the artifacts of one listing whose computed filename ends in `.logcat`
or `.zip`. -/
def specArtifactPaths (sp jn : Path) (arts : List ArtifactR) : List Path :=
  arts.filterMap (fun a =>
    let fn := computedFilename a
    if endsWithL dotLogcat fn || endsWithL dotZip fn then
      some (joinPath (joinPath sp jn) fn)
    else none)

/-- Modelled from the spec: one test contributes its three categories'
matching paths in the fixed `FILE`, `SCREENSHOT`, `LOG` order. -/
def specTestPaths (sp jn : Path) (t : TestR) : List Path :=
  specArtifactPaths sp jn t.fileArtifacts ++
    specArtifactPaths sp jn t.screenshotArtifacts ++
    specArtifactPaths sp jn t.logArtifacts

/-- Modelled from the spec: only suites named exactly `Tests Suite`
contribute, with their tests in order. -/
def specSuitePaths (sp jn : Path) (s : SuiteR) : List Path :=
  if s.sname = testsSuiteName then s.tests.flatMap (specTestPaths sp jn) else []

/-- Modelled from the spec: a job contributes its suites in order, under
its own job-named directory. -/
def specJobPaths (sp : Path) (j : JobR) : List Path :=
  j.suites.flatMap (specSuitePaths sp j.jname)

/-- Modelled from the spec sentences for the artifact downloader fan-out:
for each job, for each suite named exactly `Tests Suite`, for each test,
for each of the three categories in order, the matching artifacts' save
paths. -/
def specDownloadedPaths (sp : Path) (jobs : List JobR) : List Path :=
  jobs.flatMap (specJobPaths sp)

/-- Upload state as observed in a create-upload or get-upload response:
the status string, the optional failure message, and the metadata used
when the message is absent. -/
structure UploadInfo where
  status : List Char
  message : Option (List Char)
  metadata : List Char
deriving DecidableEq

/-- The error text raised when an upload reaches `FAILED`: the fixed text
plus the remote message, or the metadata when no message is present. -/
def uploadFailText (r : UploadInfo) : List Char :=
  "The upload failed processing. DeviceFarm says reason is: \n".toList ++
    (match r.message with
     | some m => m
     | none => r.metadata)

/-- The error text raised when the HTTP PUT of the file is not ok. -/
def putFailText (reason : List Char) : List Char :=
  "Couldn\x27t upload, requests said we\x27re not ok. Requests says: ".toList ++ reason

/-- The `FAILED` upload status string. -/
def stFailed : List Char := "FAILED".toList

/-- The `SUCCEEDED` upload status string. -/
def stSucceeded : List Char := "SUCCEEDED".toList

/-- The `COMPLETED` run status string. -/
def stCompleted : List Char := "COMPLETED".toList

/-- The `ERRORED` run status string. -/
def stErrored : List Char := "ERRORED".toList

/-- Terminal upload statuses: the polling loop of `upload_df_file` stops
at the first record whose status is `FAILED` or `SUCCEEDED`. -/
def uploadTerminal (r : UploadInfo) : Bool :=
  r.status = stFailed || r.status = stSucceeded

/-- The status-polling loop of `upload_df_file`: `r` is the most recently
observed upload record (initially from the create-upload response),
`polls` the stream of future get-upload responses, and `k` counts the
get-upload requests issued so far (one `time.sleep(5)` precedes each, so
`k` also counts the sleeps).  `FAILED` is checked before `SUCCEEDED`, as in
the source; an exhausted stream (`none`) models a loop that never observes
a terminal status and polls forever. -/
def pollUploadLoop (arn : List Char) : UploadInfo → List UploadInfo → Nat →
    Option (Nat × Except (List Char) (List Char))
  | r, [], k =>
    if r.status = stFailed then some (k, Except.error (uploadFailText r))
    else if r.status = stSucceeded then some (k, Except.ok arn)
    else none
  | r, r1 :: rest, k =>
    if r.status = stFailed then some (k, Except.error (uploadFailText r))
    else if r.status = stSucceeded then some (k, Except.ok arn)
    else pollUploadLoop arn r1 rest (k + 1)

/-- Model of `upload_df_file`: `putOk`/`putReason` are the HTTP PUT
response fields, `r0` the upload record of the create-upload response,
`polls` the get-upload responses.  The result pairs the number of
get-upload requests (= sleeps) with either the raised error text or the
returned upload identifier. -/
def upload_df_file (arn : List Char) (putOk : Bool) (putReason : List Char)
    (r0 : UploadInfo) (polls : List UploadInfo) :
    Option (Nat × Except (List Char) (List Char)) :=
  if putOk = false then some (0, Except.error (putFailText putReason))
  else pollUploadLoop arn r0 polls 0

/-- Terminal run statuses of the run-polling loop. -/
def runTerminal (st : List Char) : Bool :=
  st = stCompleted || st = stErrored

/-- The run-status polling loop of `upload_and_test_android`: each trace
entry is one loop iteration's `get_run` outcome — either a raised
exception or the observed status string.  The loop breaks on a terminal
status, an exception escapes to the surrounding handler, and an exhausted
trace (`none`) models a run that never reaches a terminal status: the loop
polls forever, with no timeout ceiling or retry limit. -/
def pollRunLoop : List (Except (List Char) (List Char)) →
    Option (Except (List Char) (List Char))
  | [] => none
  | Except.error e :: _ => some (Except.error e)
  | Except.ok st :: rest => if runTerminal st then some (Except.ok st) else pollRunLoop rest

/-- Outcome of one invocation of the orchestration function. -/
inductive OrchOutcome where
  /-- Ran to the final print: the process later exits normally (code 0). -/
  | finished (terminalState : List Char) : OrchOutcome
  /-- An explicit `exit(code)` call; `stopRunIssued` records whether the
  `stop_run` request was made before exiting. -/
  | exited (code : Nat) (stopRunIssued : Bool) : OrchOutcome
  /-- An exception escaped the function uncaught. -/
  | uncaught (e : List Char) : OrchOutcome
deriving DecidableEq

/-- Model of `upload_and_test_android` around the run-polling loop: `pre`
is the outcome of the phase before the loop (the two uploads and
`schedule_run`; an error is an uncaught exception), `polls` the run-status
trace, and `post` the outcome of the phase after the loop (`list_jobs`,
directory creation, `download_artifacts`, `save_logcat_path`).  Only the
polling loop sits in a `try`: an exception there triggers `stop_run`
followed by `exit(1)`; `none` models indefinite polling. -/
def upload_and_test_android (pre : Except (List Char) Unit)
    (polls : List (Except (List Char) (List Char)))
    (post : Except (List Char) Unit) : Option OrchOutcome :=
  match pre with
  | Except.error e => some (OrchOutcome.uncaught e)
  | Except.ok _ =>
    match pollRunLoop polls with
    | none => none
    | some (Except.error _) => some (OrchOutcome.exited 1 true)
    | some (Except.ok st) =>
      match post with
      | Except.error e => some (OrchOutcome.uncaught e)
      | Except.ok _ => some (OrchOutcome.finished st)

/-- Example zip artifact of the FILE category whose extracted report
contains the skipped marker, so its extraction reports invalidity. -/
def exZipArt : ArtifactR :=
  { atype := "FILE".toList, aname := "ca".toList, ext := "zip".toList,
    content := "zz".toList,
    zipEntries := [(junitRelPath, "<s skipped=\"2\"/>".toList)] }

/-- Example logcat artifact of the LOG category. -/
def exLogArt : ArtifactR :=
  { atype := "LOG".toList, aname := "lc".toList, ext := "logcat".toList,
    content := "log".toList, zipEntries := [] }

/-- Example test carrying the invalid zip in its FILE category and a
logcat in its later LOG category. -/
def exTest : TestR :=
  { fileArtifacts := [exZipArt], screenshotArtifacts := [], logArtifacts := [exLogArt] }

/-- Example job containing `exTest` in a suite named `Tests Suite`. -/
def exJob : JobR :=
  { jname := "job1".toList, suites := [{ sname := testsSuiteName, tests := [exTest] }] }

/-- Example save path. -/
def exSave : Path := "/s".toList

/-- A zip path whose parent directory name is the skipped marker itself,
used to separate checking the original content from checking the
rewritten content. -/
def sepZip : Path := "/w/run/skipped=\"2\"/r.zip".toList

/-- Entries of that zip: the report contains `TestShopping` but no
skipped marker, so the validity result is true although the rewritten
content does contain the marker. -/
def sepEntries : List (Path × Content) := [(junitRelPath, "TestShopping".toList)]

/-- Invariant carried by the downloader state: the recorded log paths are
exactly the first components of the encounters whose validity flag and
logcat mark are both set, in encounter order, and every recorded path
ends in `.logcat`. -/
def daInv (st : DAState) : Prop :=
  st.logcat_paths = (st.encounters.filter (fun e => e.2.1 && e.2.2)).map (fun e => e.1) ∧
  ∀ p ∈ st.logcat_paths, endsWithL dotLogcat p = true

end DeviceFarm

namespace DeviceFarm

/-! ### The uploader (`upload_df_file`) -/

/-- The two terminal upload statuses differ. -/
theorem stFailed_ne_stSucceeded : stFailed ≠ stSucceeded := by decide

/-- The two terminal upload statuses differ (symmetric form). -/
theorem stSucceeded_ne_stFailed : stSucceeded ≠ stFailed := by decide

/-- The polling loop returns the identifier exactly when the first
terminal record of the observed status sequence is a success. -/
theorem pollUploadLoop_ok_iff (arn : List Char) :
    ∀ (polls : List UploadInfo) (r0 : UploadInfo) (k : Nat),
      (∃ n, pollUploadLoop arn r0 polls k = some (n, Except.ok arn)) ↔
        ∃ r, (r0 :: polls).find? uploadTerminal = some r ∧
          r.status = stSucceeded := by
  intro polls
  induction polls with
  | nil =>
    intro r0 k
    rw [List.find?_cons]
    by_cases hf : r0.status = stFailed
    · have hs : ¬r0.status = stSucceeded := by
        rw [hf]; exact stFailed_ne_stSucceeded
      have ht : uploadTerminal r0 = true := by simp [uploadTerminal, hf]
      rw [ht]
      simp [pollUploadLoop, hf, hs, stFailed_ne_stSucceeded, stSucceeded_ne_stFailed]
    · by_cases hs : r0.status = stSucceeded
      · have ht : uploadTerminal r0 = true := by simp [uploadTerminal, hs]
        rw [ht]
        simp [pollUploadLoop, hf, hs, stFailed_ne_stSucceeded, stSucceeded_ne_stFailed]
      · have ht : uploadTerminal r0 = false := by simp [uploadTerminal, hf, hs]
        rw [ht]
        simp [pollUploadLoop, hf, hs, stFailed_ne_stSucceeded, stSucceeded_ne_stFailed]
  | cons r1 rest ih =>
    intro r0 k
    rw [List.find?_cons]
    by_cases hf : r0.status = stFailed
    · have hs : ¬r0.status = stSucceeded := by
        rw [hf]; exact stFailed_ne_stSucceeded
      have ht : uploadTerminal r0 = true := by simp [uploadTerminal, hf]
      rw [ht]
      simp [pollUploadLoop, hf, hs, stFailed_ne_stSucceeded, stSucceeded_ne_stFailed]
    · by_cases hs : r0.status = stSucceeded
      · have ht : uploadTerminal r0 = true := by simp [uploadTerminal, hs]
        rw [ht]
        simp [pollUploadLoop, hf, hs, stFailed_ne_stSucceeded, stSucceeded_ne_stFailed]
      · have ht : uploadTerminal r0 = false := by simp [uploadTerminal, hf, hs]
        rw [ht]
        have h1 := ih r1 (k + 1)
        simp only [pollUploadLoop, hf, hs, if_false, ite_false]
        exact h1

/-- The polling loop raises the remote-supplied failure text exactly when
the first terminal record of the observed status sequence is a failure. -/
theorem pollUploadLoop_failed (arn : List Char) :
    ∀ (polls : List UploadInfo) (r0 : UploadInfo) (k : Nat) (r : UploadInfo),
      (r0 :: polls).find? uploadTerminal = some r →
      r.status = stFailed →
      ∃ n, pollUploadLoop arn r0 polls k = some (n, Except.error (uploadFailText r)) := by
  intro polls
  induction polls with
  | nil =>
    intro r0 k r hfind hst
    rw [List.find?_cons] at hfind
    by_cases hf : r0.status = stFailed
    · have ht : uploadTerminal r0 = true := by simp [uploadTerminal, hf]
      rw [ht] at hfind
      cases hfind
      exact ⟨k, by simp [pollUploadLoop, hf]⟩
    · by_cases hs : r0.status = stSucceeded
      · have ht : uploadTerminal r0 = true := by simp [uploadTerminal, hs]
        rw [ht] at hfind
        cases hfind
        rw [hs] at hst
        exact absurd hst.symm stFailed_ne_stSucceeded
      · have ht : uploadTerminal r0 = false := by simp [uploadTerminal, hf, hs]
        rw [ht] at hfind
        simp [List.find?] at hfind
  | cons r1 rest ih =>
    intro r0 k r hfind hst
    rw [List.find?_cons] at hfind
    by_cases hf : r0.status = stFailed
    · have ht : uploadTerminal r0 = true := by simp [uploadTerminal, hf]
      rw [ht] at hfind
      cases hfind
      exact ⟨k, by simp [pollUploadLoop, hf]⟩
    · by_cases hs : r0.status = stSucceeded
      · have ht : uploadTerminal r0 = true := by simp [uploadTerminal, hs]
        rw [ht] at hfind
        cases hfind
        rw [hs] at hst
        exact absurd hst.symm stFailed_ne_stSucceeded
      · have ht : uploadTerminal r0 = false := by simp [uploadTerminal, hf, hs]
        rw [ht] at hfind
        obtain ⟨n, hn⟩ := ih r1 (k + 1) r hfind hst
        refine ⟨n, ?_⟩
        simp only [pollUploadLoop, hf, hs, if_false, ite_false]
        exact hn

/-- C4: `upload_df_file` raises the transport-reported reason when the
HTTP PUT response is not ok; during polling it returns the upload
identifier exactly when the first terminal observed status is
`SUCCEEDED`, and raises the remote message (or metadata) when the first
terminal observed status is `FAILED`. -/
theorem upload_df_file_outcomes
    (arn putReason : List Char) (r0 : UploadInfo) (polls : List UploadInfo) :
    upload_df_file arn false putReason r0 polls =
        some (0, Except.error (putFailText putReason)) ∧
    ((∃ n, upload_df_file arn true putReason r0 polls = some (n, Except.ok arn)) ↔
      ∃ r, (r0 :: polls).find? uploadTerminal = some r ∧
        r.status = stSucceeded) ∧
    (∀ r, (r0 :: polls).find? uploadTerminal = some r →
      r.status = stFailed →
      ∃ n, upload_df_file arn true putReason r0 polls =
        some (n, Except.error (uploadFailText r))) := by
  refine ⟨rfl, ?_, ?_⟩
  · simpa [upload_df_file] using pollUploadLoop_ok_iff arn polls r0 0
  · intro r hfind hst
    simpa [upload_df_file] using pollUploadLoop_failed arn polls r0 0 r hfind hst

/-- Witness: at concrete inputs, a failed PUT raises the transport
reason, a FAILED poll raises the metadata-carrying text, and a SUCCEEDED
poll returns the identifier. -/
theorem upload_df_file_outcomes_witness :
    upload_df_file "a".toList false "cut".toList
        ⟨"INITIALIZED".toList, none, []⟩ [] =
      some (0, Except.error (putFailText "cut".toList)) ∧
    (∃ n, upload_df_file "a".toList true []
        ⟨"INITIALIZED".toList, none, []⟩ [⟨stFailed, none, "meta".toList⟩] =
      some (n, Except.error (uploadFailText ⟨stFailed, none, "meta".toList⟩))) ∧
    (∃ n, upload_df_file "a".toList true []
        ⟨"INITIALIZED".toList, none, []⟩ [⟨stSucceeded, none, []⟩] =
      some (n, Except.ok "a".toList)) :=
  ⟨(upload_df_file_outcomes "a".toList "cut".toList ⟨"INITIALIZED".toList, none, []⟩ []).1,
   (upload_df_file_outcomes "a".toList [] ⟨"INITIALIZED".toList, none, []⟩
       [⟨stFailed, none, "meta".toList⟩]).2.2
     ⟨stFailed, none, "meta".toList⟩ (by decide) (by decide),
   (upload_df_file_outcomes "a".toList [] ⟨"INITIALIZED".toList, none, []⟩
       [⟨stSucceeded, none, []⟩]).2.1.mpr
     ⟨⟨stSucceeded, none, []⟩, by decide, by decide⟩⟩

/-- C10: `upload_df_file` inspects the status of the initial
create-upload response before any sleep or re-query: an initial
`SUCCEEDED` returns the identifier with zero get-upload requests (hence
zero sleeps), and an initial `FAILED` raises immediately, also with zero
re-queries. -/
theorem upload_initial_status_short_circuit
    (arn putReason : List Char) (r0 : UploadInfo) (polls : List UploadInfo) :
    (r0.status = stSucceeded →
      upload_df_file arn true putReason r0 polls = some (0, Except.ok arn)) ∧
    (r0.status = stFailed →
      upload_df_file arn true putReason r0 polls =
        some (0, Except.error (uploadFailText r0))) := by
  constructor
  · intro h
    have hne : ¬r0.status = stFailed := by
      rw [h]; exact fun hc => stFailed_ne_stSucceeded hc.symm
    cases polls with
    | nil => simp [upload_df_file, pollUploadLoop, h, hne, stSucceeded_ne_stFailed]
    | cons r1 rest => simp [upload_df_file, pollUploadLoop, h, hne, stSucceeded_ne_stFailed]
  · intro h
    cases polls with
    | nil => simp [upload_df_file, pollUploadLoop, h]
    | cons r1 rest => simp [upload_df_file, pollUploadLoop, h]

/-- Witness for the initial-status short circuit at concrete records. -/
theorem upload_initial_status_short_circuit_witness :
    upload_df_file "a".toList true [] ⟨stSucceeded, none, []⟩
        [⟨stFailed, none, []⟩] = some (0, Except.ok "a".toList) ∧
    upload_df_file "a".toList true [] ⟨stFailed, some "m".toList, []⟩
        [⟨stSucceeded, none, []⟩] =
      some (0, Except.error (uploadFailText ⟨stFailed, some "m".toList, []⟩)) :=
  ⟨(upload_initial_status_short_circuit "a".toList [] ⟨stSucceeded, none, []⟩
      [⟨stFailed, none, []⟩]).1 rfl,
   (upload_initial_status_short_circuit "a".toList [] ⟨stFailed, some "m".toList, []⟩
      [⟨stSucceeded, none, []⟩]).2 rfl⟩

/-! ### The run orchestrator (`upload_and_test_android`) -/

/-- C5: within the orchestration, an explicit process exit happens exactly
when the pre-loop phase succeeded and the run-polling loop observed an
exception; that exit always carries code 1 and is always preceded by the
stop-run request.  Every other terminating path finishes normally or lets
an exception escape uncaught — no other path calls `exit` with a non-zero
code. -/
theorem orchestration_exit_code_iff
    (pre : Except (List Char) Unit) (polls : List (Except (List Char) (List Char)))
    (post : Except (List Char) Unit) (out : OrchOutcome)
    (h : upload_and_test_android pre polls post = some out) :
    ((∃ c b, out = OrchOutcome.exited c b) ↔
      (pre = Except.ok () ∧ ∃ e, pollRunLoop polls = some (Except.error e))) ∧
    (∀ c b, out = OrchOutcome.exited c b → c = 1 ∧ b = true) := by
  cases pre with
  | error e =>
    simp only [upload_and_test_android] at h
    obtain rfl : out = OrchOutcome.uncaught e := (Option.some.inj h).symm
    constructor
    · constructor
      · rintro ⟨c, b, hcb⟩; cases hcb
      · rintro ⟨hpre, -⟩; cases hpre
    · intro c b hcb; cases hcb
  | ok u =>
    cases u
    simp only [upload_and_test_android] at h
    rcases hp : pollRunLoop polls with - | exc
    · rw [hp] at h; cases h
    · rw [hp] at h
      cases exc with
      | error e =>
        obtain rfl : out = OrchOutcome.exited 1 true := (Option.some.inj h).symm
        refine ⟨⟨fun _ => ⟨rfl, e, rfl⟩, fun _ => ⟨1, true, rfl⟩⟩, ?_⟩
        intro c b hcb
        cases hcb
        exact ⟨rfl, rfl⟩
      | ok st =>
        cases post with
        | error e2 =>
          obtain rfl : out = OrchOutcome.uncaught e2 := (Option.some.inj h).symm
          constructor
          · constructor
            · rintro ⟨c, b, hcb⟩; cases hcb
            · rintro ⟨-, e3, he⟩; cases he
          · intro c b hcb; cases hcb
        | ok u2 =>
          cases u2
          obtain rfl : out = OrchOutcome.finished st := (Option.some.inj h).symm
          constructor
          · constructor
            · rintro ⟨c, b, hcb⟩; cases hcb
            · rintro ⟨-, e3, he⟩; cases he
          · intro c b hcb; cases hcb

/-- Witness: a polling trace whose first significant entry is an
exception makes the orchestration stop the run and exit with code 1. -/
theorem orchestration_exit_code_iff_witness :
    ((∃ c b, OrchOutcome.exited 1 true = OrchOutcome.exited c b) ↔
      ((Except.ok () : Except (List Char) Unit) = Except.ok () ∧
        ∃ e, pollRunLoop [Except.error "x".toList] = some (Except.error e))) ∧
    (∀ c b, OrchOutcome.exited 1 true = OrchOutcome.exited c b → c = 1 ∧ b = true) :=
  orchestration_exit_code_iff (Except.ok ()) [Except.error "x".toList] (Except.ok ())
    (OrchOutcome.exited 1 true) rfl

/-- C8: the run-status polling loop terminates exactly on a terminal
status: any finite sequence of non-terminal statuses followed by
`COMPLETED` or `ERRORED` makes it stop with that status, while a status
sequence that stays non-terminal — of any length, there being no timeout
ceiling or retry limit — leaves the loop still polling. -/
theorem pollRunLoop_termination
    (mids : List (List Char)) (hm : ∀ st ∈ mids, runTerminal st = false) :
    (∀ fin, runTerminal fin = true →
      pollRunLoop (mids.map Except.ok ++ [Except.ok fin]) = some (Except.ok fin)) ∧
    pollRunLoop (mids.map Except.ok) = none := by
  induction mids with
  | nil =>
    refine ⟨fun fin hf => ?_, rfl⟩
    simp [pollRunLoop, hf]
  | cons m ms ih =>
    have hm0 : runTerminal m = false := hm m (by simp)
    have hms : ∀ st ∈ ms, runTerminal st = false := fun st hs => hm st (by simp [hs])
    obtain ⟨ih1, ih2⟩ := ih hms
    refine ⟨fun fin hf => ?_, ?_⟩
    · simpa [pollRunLoop, hm0] using ih1 fin hf
    · simpa [pollRunLoop, hm0] using ih2

/-- Witness: one intermediate status then `COMPLETED` terminates; two
intermediate statuses alone leave the loop polling. -/
theorem pollRunLoop_termination_witness :
    pollRunLoop (["RUNNING".toList].map Except.ok ++ [Except.ok "COMPLETED".toList]) =
        some (Except.ok "COMPLETED".toList) ∧
      pollRunLoop (["RUNNING".toList, "PENDING".toList].map Except.ok) = none :=
  ⟨(pollRunLoop_termination ["RUNNING".toList] (by decide)).1 "COMPLETED".toList (by decide),
   (pollRunLoop_termination ["RUNNING".toList, "PENDING".toList] (by decide)).2⟩

/-! ### Filesystem lemmas -/

/-- Reading the path just written returns the written content. -/
theorem fsRead_fsWrite_self (fs : FS) (p : Path) (c : Content) :
    fsRead (fsWrite fs p c) p = some c := by
  simp [fsRead, fsWrite, List.find?_cons]

/-- Reading from a one-entry extension of the filesystem. -/
theorem fsRead_cons (e : Path × Content) (rest : FS) (q : Path) :
    fsRead (e :: rest) q = if e.1 = q then some e.2 else fsRead rest q := by
  by_cases hq : e.1 = q
  · simp [fsRead, List.find?_cons, hq]
  · simp [fsRead, List.find?_cons, hq]

/-- Erasing one path leaves reads of any other path unchanged. -/
theorem fsRead_fsErase_ne (q : Path) :
    ∀ (fs : FS) (p : Path), q ≠ p → fsRead (fsErase fs p) q = fsRead fs q := by
  intro fs
  induction fs with
  | nil => intro p h; rfl
  | cons e rest ih =>
    intro p h
    simp only [fsErase, List.filter_cons]
    by_cases he : e.1 = p
    · have hq : ¬e.1 = q := by rw [he]; exact fun hc => h hc.symm
      rw [if_neg (by simp [he]), fsRead_cons, if_neg hq]
      exact ih p h
    · rw [if_pos (by simp [he]), fsRead_cons, fsRead_cons]
      by_cases hq : e.1 = q
      · simp [hq]
      · rw [if_neg hq, if_neg hq]
        exact ih p h

/-- Writing one path leaves reads of any other path unchanged. -/
theorem fsRead_fsWrite_ne (fs : FS) (p q : Path) (c : Content) (h : q ≠ p) :
    fsRead (fsWrite fs p c) q = fsRead fs q := by
  have hp : ¬p = q := fun hc => h hc.symm
  simp only [fsWrite, fsRead, List.find?_cons, hp]
  simpa [fsRead] using fsRead_fsErase_ne q fs p h

/-! ### Zip extraction and report relocation -/

/-- Characterisation of `relocate`: it fails exactly when the report path
is missing after extraction, and otherwise performs the rename and the
copy of the report content `c`, returning the copied path. -/
theorem relocate_spec (fs : FS) (entries : List (Path × Content)) (zp : Path) :
    relocate fs entries zp =
      match fsRead (fs1Of fs entries zp) (originPathOf zp) with
      | none => none
      | some c => some (fs3Of fs entries zp c c, c, resultPathOf zp) := by
  unfold relocate
  cases h : fsRead (fs1Of fs entries zp) (originPathOf zp) with
  | none => rfl
  | some c =>
    have h2 : fsRead (fs2Of fs entries zp c) (renamePathOf zp) = some c :=
      fsRead_fsWrite_self _ _ _
    have h3 : fsRead (fs3Of fs entries zp c c) (resultPathOf zp) = some c :=
      fsRead_fsWrite_self _ _ _
    simp only [h2, h3]

/-- C2: for every zip report processed by `unzip_and_copy`, the returned
validity is false exactly when the original, pre-substitution content of
the copied report contains the literal `skipped="2"`; and the decision is
made on the content before the `TestShopping` rewrite: on a concrete
report whose rewritten content does contain the marker while the original
does not, the function still returns true. -/
theorem unzip_validity_pre_substitution :
    (∀ (fs fsR : FS) (entries : List (Path × Content)) (zp : Path) (fs3 : FS)
      (c0 : Content) (rp : Path) (b : Bool),
      relocate fs entries zp = some (fs3, c0, rp) →
      unzip_and_copy fs entries zp = some (fsR, b) →
      (b = false ↔ containsL skippedMarker c0 = true)) ∧
    ((unzip_and_copy [] sepEntries sepZip).map
        (fun r => (r.2, (fsRead r.1 (resultPathOf sepZip)).map (containsL skippedMarker))) =
      some (true, some true)) := by
  constructor
  · intro fs fsR entries zp fs3 c0 rp b h1 h2
    unfold unzip_and_copy at h2
    rw [h1] at h2
    by_cases hc : containsL skippedMarker c0 = true
    · simp [hc] at h2
      simp [← h2.2, hc]
    · simp [hc] at h2
      simp [← h2.2, hc]
  · decide

/-- Witness: on the concrete report of `sepEntries` the validity equals
the absence of the marker from the original content. -/
theorem unzip_validity_pre_substitution_witness :
    ∃ (fs3 fsR : FS) (c0 : Content) (rp : Path) (b : Bool),
      relocate [] sepEntries sepZip = some (fs3, c0, rp) ∧
      unzip_and_copy [] sepEntries sepZip = some (fsR, b) ∧
      (b = false ↔ containsL skippedMarker c0 = true) := by
  rcases h1 : relocate [] sepEntries sepZip with - | ⟨fs3, c0, rp⟩
  · exact absurd h1 (by decide)
  · rcases h2 : unzip_and_copy [] sepEntries sepZip with - | ⟨fsR, b⟩
    · exact absurd h2 (by decide)
    · exact ⟨fs3, fsR, c0, rp, b, rfl, rfl,
        unzip_validity_pre_substitution.1 [] fsR sepEntries sepZip fs3 c0 rp b h1 h2⟩

/-- C9: the `TestShopping` rewrite of `unzip_and_copy` modifies only the
copied report file (the relocation's result path, inside the `report/`
directory): every other path keeps the content it had after relocation;
in particular the renamed report left at its location inside the
extracted tree still holds the original content, and the copied file
holds the rewritten content. -/
theorem unzip_rewrite_frame
    (fs fsR : FS) (entries : List (Path × Content)) (zp : Path) (fs3 : FS)
    (c0 : Content) (rp : Path) (b : Bool)
    (h1 : relocate fs entries zp = some (fs3, c0, rp))
    (h2 : unzip_and_copy fs entries zp = some (fsR, b)) :
    rp = resultPathOf zp ∧
    (∀ p, p ≠ rp → fsRead fsR p = fsRead fs3 p) ∧
    fsRead fsR rp = some (renameTestName (devNameOf zp) c0) ∧
    (renamePathOf zp ≠ rp → fsRead fsR (renamePathOf zp) = some c0) := by
  have hs := relocate_spec fs entries zp
  rw [h1] at hs
  unfold unzip_and_copy at h2
  rw [h1] at h2
  cases hread : fsRead (fs1Of fs entries zp) (originPathOf zp) with
  | none => rw [hread] at hs; cases hs
  | some c =>
    rw [hread] at hs
    have hinj := Option.some.inj hs
    have hfs3 : fs3 = fs3Of fs entries zp c c := congrArg (fun t => t.1) hinj
    have hc0 : c0 = c := congrArg (fun t => t.2.1) hinj
    have hrp : rp = resultPathOf zp := congrArg (fun t => t.2.2) hinj
    have hfsR : fsR = fsWrite fs3 rp (renameTestName (devNameOf zp) c0) := by
      by_cases hcm : containsL skippedMarker c0 = true
      · simp [hcm] at h2
        exact h2.1.symm
      · simp [hcm] at h2
        exact h2.1.symm
    refine ⟨hrp, ?_, ?_, ?_⟩
    · intro p hp
      rw [hfsR]
      exact fsRead_fsWrite_ne fs3 rp p _ hp
    · rw [hfsR]
      exact fsRead_fsWrite_self fs3 rp _
    · intro hne
      rw [hfsR, fsRead_fsWrite_ne fs3 rp (renamePathOf zp) _ hne, hfs3]
      show fsRead (fsWrite (fs2Of fs entries zp c) (resultPathOf zp) c)
        (renamePathOf zp) = some c0
      rw [fsRead_fsWrite_ne _ (resultPathOf zp) (renamePathOf zp) _ (hrp ▸ hne), hc0]
      exact fsRead_fsWrite_self _ (renamePathOf zp) c

/-- Witness: on the concrete zip of `sepEntries`, the renamed report
retains its original content while the copied report was rewritten. -/
theorem unzip_rewrite_frame_witness :
    ∃ (fs3 fsR : FS) (c0 : Content) (rp : Path) (b : Bool),
      relocate [] sepEntries sepZip = some (fs3, c0, rp) ∧
      unzip_and_copy [] sepEntries sepZip = some (fsR, b) ∧
      rp = resultPathOf sepZip ∧
      fsRead fsR (renamePathOf sepZip) = some c0 := by
  rcases h1 : relocate [] sepEntries sepZip with - | ⟨fs3, c0, rp⟩
  · exact absurd h1 (by decide)
  · rcases h2 : unzip_and_copy [] sepEntries sepZip with - | ⟨fsR, b⟩
    · exact absurd h2 (by decide)
    · obtain ⟨hr, hframe, hself, hren⟩ :=
        unzip_rewrite_frame [] fsR sepEntries sepZip fs3 c0 rp b h1 h2
      exact ⟨fs3, fsR, c0, rp, b, rfl, rfl, hr, hren (by rw [hr]; decide)⟩

/-! ### String suffix lemmas -/

/-- The Boolean test agrees with the prefix relation. -/
theorem startsWithL_iff : ∀ (p l : List Char), startsWithL p l = true ↔ p <+: l
  | [], l => by simp [startsWithL]
  | c :: cs, [] => by simp [startsWithL]
  | c :: cs, d :: ds => by
    show (c == d && startsWithL cs ds) = true ↔ _
    rw [Bool.and_eq_true, beq_iff_eq, startsWithL_iff cs ds, List.cons_prefix_cons]

/-- The Boolean test agrees with the suffix relation. -/
theorem endsWithL_iff (suff l : List Char) : endsWithL suff l = true ↔ suff <:+ l := by
  rw [endsWithL, startsWithL_iff]
  exact List.reverse_prefix

/-- The second component is a suffix of a join. -/
theorem suffix_joinPath (a b : Path) : b <:+ joinPath a b := by
  unfold joinPath
  by_cases h1 : b.head? = some '/'
  · rw [if_pos h1]
  · rw [if_neg h1]
    by_cases h2 : a = []
    · rw [if_pos h2]
    · rw [if_neg h2]
      by_cases h3 : a.getLast? = some '/'
      · rw [if_pos h3]
        exact List.suffix_append a b
      · rw [if_neg h3]
        exact ⟨a ++ ['/'], by simp⟩

/-- A suffix of the second component is a suffix of a join. -/
theorem endsWithL_joinPath (suff a b : Path) (h : endsWithL suff b = true) :
    endsWithL suff (joinPath a b) = true := by
  rw [endsWithL_iff] at h ⊢
  exact h.trans (suffix_joinPath a b)

/-- A path ending in `.logcat` ends in the letter `t`. -/
theorem dotLogcat_getLast (p : Path) (h : endsWithL dotLogcat p = true) :
    p.getLast? = some 't' := by
  rw [endsWithL_iff] at h
  obtain ⟨t, rfl⟩ := h
  rw [List.getLast?_append_of_ne_nil] <;> decide

/-- No path ends in both `.logcat` and `.zip`. -/
theorem not_zip_of_logcat (p : Path) (h : endsWithL dotLogcat p = true) :
    endsWithL dotZip p = false := by
  by_contra hzc
  rw [Bool.not_eq_false, endsWithL_iff] at hzc
  have h1 := dotLogcat_getLast p h
  obtain ⟨t, rfl⟩ := hzc
  rw [List.getLast?_append_of_ne_nil] at h1
  · exact absurd h1 (by decide)
  · decide

/-! ### Downloader step lemmas -/

/-- A non-matching artifact is skipped entirely. -/
theorem processArtifacts_cons_nomatch (sp jn : Path) (v : Bool) (st : DAState)
    (a : ArtifactR) (rest : List ArtifactR)
    (h1 : endsWithL dotLogcat (computedFilename a) = false)
    (h2 : endsWithL dotZip (computedFilename a) = false) :
    processArtifacts sp jn v st (a :: rest) = processArtifacts sp jn v st rest := by
  simp [processArtifacts, h1, h2]

/-- A matching non-zip logcat artifact is downloaded, recorded only when
the flag is set, and leaves the flag unchanged. -/
theorem processArtifacts_cons_logcat (sp jn : Path) (v : Bool) (st : DAState)
    (a : ArtifactR) (rest : List ArtifactR)
    (h1 : endsWithL dotLogcat (computedFilename a) = true)
    (h2 : endsWithL dotZip (computedFilename a) = false) :
    processArtifacts sp jn v st (a :: rest) =
      processArtifacts sp jn v
        { fs := fsWrite st.fs (joinPath (joinPath sp jn) (computedFilename a)) a.content
          logcat_paths :=
            if v then st.logcat_paths ++ [joinPath (joinPath sp jn) (computedFilename a)]
            else st.logcat_paths
          downloads := st.downloads ++ [joinPath (joinPath sp jn) (computedFilename a)]
          encounters :=
            st.encounters ++ [(joinPath (joinPath sp jn) (computedFilename a), v, true)] }
        rest := by
  simp [processArtifacts, h1, h2]

/-- A matching zip artifact whose extraction succeeds is downloaded and
extracted, and the extraction result becomes the new flag. -/
theorem processArtifacts_cons_zip (sp jn : Path) (v : Bool) (st : DAState)
    (a : ArtifactR) (rest : List ArtifactR) (fs2 : FS) (b : Bool)
    (hz : endsWithL dotZip (computedFilename a) = true)
    (hu : unzip_and_copy
        (fsWrite st.fs (joinPath (joinPath sp jn) (computedFilename a)) a.content)
        a.zipEntries (joinPath (joinPath sp jn) (computedFilename a)) = some (fs2, b)) :
    processArtifacts sp jn v st (a :: rest) =
      processArtifacts sp jn b
        { fs := fs2
          logcat_paths :=
            if v && endsWithL dotLogcat (computedFilename a) then
              st.logcat_paths ++ [joinPath (joinPath sp jn) (computedFilename a)]
            else st.logcat_paths
          downloads := st.downloads ++ [joinPath (joinPath sp jn) (computedFilename a)]
          encounters := st.encounters ++ [(joinPath (joinPath sp jn) (computedFilename a), v,
            endsWithL dotLogcat (computedFilename a))] }
        rest := by
  simp [processArtifacts, hz, hu]

/-- A matching zip artifact whose extraction raises aborts the whole
download. -/
theorem processArtifacts_cons_zip_fail (sp jn : Path) (v : Bool) (st : DAState)
    (a : ArtifactR) (rest : List ArtifactR)
    (hz : endsWithL dotZip (computedFilename a) = true)
    (hu : unzip_and_copy
        (fsWrite st.fs (joinPath (joinPath sp jn) (computedFilename a)) a.content)
        a.zipEntries (joinPath (joinPath sp jn) (computedFilename a)) = none) :
    processArtifacts sp jn v st (a :: rest) = none := by
  simp [processArtifacts, hz, hu]

/-! ### Downloads accumulate exactly the matching artifact paths -/

/-- One artifact listing appends exactly its matching paths to both
`downloads` and the encounter paths. -/
theorem processArtifacts_downloads (sp jn : Path) :
    ∀ (arts : List ArtifactR) (v : Bool) (st : DAState) (v2 : Bool) (st2 : DAState),
      processArtifacts sp jn v st arts = some (v2, st2) →
      st2.downloads = st.downloads ++ specArtifactPaths sp jn arts ∧
      st2.encounters.map (fun e => e.1) =
        st.encounters.map (fun e => e.1) ++ specArtifactPaths sp jn arts := by
  intro arts
  induction arts with
  | nil =>
    intro v st v2 st2 h
    obtain ⟨rfl, rfl⟩ : v = v2 ∧ st = st2 := by simpa [processArtifacts] using h
    simp [specArtifactPaths]
  | cons a rest ih =>
    intro v st v2 st2 h
    by_cases hz : endsWithL dotZip (computedFilename a) = true
    · rcases hu : unzip_and_copy
          (fsWrite st.fs (joinPath (joinPath sp jn) (computedFilename a)) a.content)
          a.zipEntries (joinPath (joinPath sp jn) (computedFilename a)) with - | ⟨fs2, b⟩
      · rw [processArtifacts_cons_zip_fail sp jn v st a rest hz hu] at h
        cases h
      · rw [processArtifacts_cons_zip sp jn v st a rest fs2 b hz hu] at h
        obtain ⟨hd, he⟩ := ih b _ v2 st2 h
        refine ⟨?_, ?_⟩
        · rw [hd]
          simp [specArtifactPaths, List.filterMap_cons, hz]
        · rw [he]
          simp [specArtifactPaths, List.filterMap_cons, hz]
    · rw [Bool.not_eq_true] at hz
      by_cases hl : endsWithL dotLogcat (computedFilename a) = true
      · rw [processArtifacts_cons_logcat sp jn v st a rest hl hz] at h
        obtain ⟨hd, he⟩ := ih v _ v2 st2 h
        refine ⟨?_, ?_⟩
        · rw [hd]
          simp [specArtifactPaths, List.filterMap_cons, hl]
        · rw [he]
          simp [specArtifactPaths, List.filterMap_cons, hl]
      · rw [Bool.not_eq_true] at hl
        rw [processArtifacts_cons_nomatch sp jn v st a rest hl hz] at h
        obtain ⟨hd, he⟩ := ih v st v2 st2 h
        refine ⟨?_, ?_⟩
        · rw [hd]
          simp [specArtifactPaths, List.filterMap_cons, hl, hz]
        · rw [he]
          simp [specArtifactPaths, List.filterMap_cons, hl, hz]

/-- `processTest` as a bind chain, for case analysis. -/
theorem processTest_eq (sp jn : Path) (st : DAState) (t : TestR) :
    processTest sp jn st t =
      (processArtifacts sp jn true st t.fileArtifacts).bind (fun r1 =>
        (processArtifacts sp jn true r1.2 t.screenshotArtifacts).bind (fun r2 =>
          (processArtifacts sp jn true r2.2 t.logArtifacts).map (fun r3 => r3.2))) := by
  unfold processTest
  rcases processArtifacts sp jn true st t.fileArtifacts with - | ⟨v1, st1⟩ <;> simp
  rcases processArtifacts sp jn true st1 t.screenshotArtifacts with - | ⟨v2, st2⟩ <;> simp
  rcases processArtifacts sp jn true st2 t.logArtifacts with - | ⟨v3, st3⟩ <;> simp

/-- `processTests` on a cons, as a bind. -/
theorem processTests_cons (sp jn : Path) (st : DAState) (t : TestR) (ts : List TestR) :
    processTests sp jn st (t :: ts) =
      (processTest sp jn st t).bind (fun st1 => processTests sp jn st1 ts) := by
  rcases h : processTest sp jn st t with - | st1 <;> simp [processTests, h]

/-- `processSuites` on a cons, as a bind. -/
theorem processSuites_cons (sp jn : Path) (st : DAState) (su : SuiteR) (ss : List SuiteR) :
    processSuites sp jn st (su :: ss) =
      (processSuite sp jn st su).bind (fun st1 => processSuites sp jn st1 ss) := by
  rcases h : processSuite sp jn st su with - | st1 <;> simp [processSuites, h]

/-- `processJobs` on a cons, as a bind. -/
theorem processJobs_cons (sp : Path) (st : DAState) (j : JobR) (js : List JobR) :
    processJobs sp st (j :: js) =
      (processJob sp st j).bind (fun st1 => processJobs sp st1 js) := by
  rcases h : processJob sp st j with - | st1 <;> simp [processJobs, h]

/-- One test appends exactly its matching paths. -/
theorem processTest_downloads (sp jn : Path) (st : DAState) (t : TestR) (st3 : DAState)
    (h : processTest sp jn st t = some st3) :
    st3.downloads = st.downloads ++ specTestPaths sp jn t ∧
    st3.encounters.map (fun e => e.1) =
      st.encounters.map (fun e => e.1) ++ specTestPaths sp jn t := by
  rw [processTest_eq] at h
  simp only [Option.bind_eq_some, Option.map_eq_some'] at h
  obtain ⟨⟨v1, st1⟩, h1, ⟨vb, st2⟩, h2, ⟨vc, stc⟩, h3, rfl⟩ := h
  obtain ⟨d1, e1⟩ := processArtifacts_downloads sp jn t.fileArtifacts true st v1 st1 h1
  obtain ⟨d2, e2⟩ := processArtifacts_downloads sp jn t.screenshotArtifacts true st1 vb st2 h2
  obtain ⟨d3, e3⟩ := processArtifacts_downloads sp jn t.logArtifacts true st2 vc stc h3
  constructor
  · rw [d3, d2, d1, specTestPaths]
    simp [List.append_assoc]
  · rw [e3, e2, e1, specTestPaths]
    simp [List.append_assoc]

/-- A test list appends exactly its matching paths. -/
theorem processTests_downloads (sp jn : Path) :
    ∀ (ts : List TestR) (st : DAState) (st2 : DAState),
      processTests sp jn st ts = some st2 →
      st2.downloads = st.downloads ++ ts.flatMap (specTestPaths sp jn) ∧
      st2.encounters.map (fun e => e.1) =
        st.encounters.map (fun e => e.1) ++ ts.flatMap (specTestPaths sp jn) := by
  intro ts
  induction ts with
  | nil =>
    intro st st2 h
    obtain rfl : st = st2 := by simpa [processTests] using h
    simp
  | cons t rest ih =>
    intro st st2 h
    rw [processTests_cons, Option.bind_eq_some] at h
    obtain ⟨st1, h1, h⟩ := h
    obtain ⟨d1, e1⟩ := processTest_downloads sp jn st t st1 h1
    obtain ⟨d2, e2⟩ := ih st1 st2 h
    constructor
    · rw [d2, d1]
      simp [List.append_assoc]
    · rw [e2, e1]
      simp [List.append_assoc]

/-- One suite appends exactly its matching paths (nothing unless it is the
`Tests Suite`). -/
theorem processSuite_downloads (sp jn : Path) (st : DAState) (s : SuiteR) (st2 : DAState)
    (h : processSuite sp jn st s = some st2) :
    st2.downloads = st.downloads ++ specSuitePaths sp jn s ∧
    st2.encounters.map (fun e => e.1) =
      st.encounters.map (fun e => e.1) ++ specSuitePaths sp jn s := by
  unfold processSuite at h
  unfold specSuitePaths
  by_cases hn : s.sname = testsSuiteName
  · rw [if_pos hn] at h
    rw [if_pos hn]
    exact processTests_downloads sp jn s.tests st st2 h
  · rw [if_neg hn] at h
    rw [if_neg hn]
    obtain rfl : st = st2 := by simpa using h
    simp

/-- A suite list appends exactly its matching paths. -/
theorem processSuites_downloads (sp jn : Path) :
    ∀ (ss : List SuiteR) (st : DAState) (st2 : DAState),
      processSuites sp jn st ss = some st2 →
      st2.downloads = st.downloads ++ ss.flatMap (specSuitePaths sp jn) ∧
      st2.encounters.map (fun e => e.1) =
        st.encounters.map (fun e => e.1) ++ ss.flatMap (specSuitePaths sp jn) := by
  intro ss
  induction ss with
  | nil =>
    intro st st2 h
    obtain rfl : st = st2 := by simpa [processSuites] using h
    simp
  | cons su rest ih =>
    intro st st2 h
    rw [processSuites_cons, Option.bind_eq_some] at h
    obtain ⟨st1, h1, h⟩ := h
    obtain ⟨d1, e1⟩ := processSuite_downloads sp jn st su st1 h1
    obtain ⟨d2, e2⟩ := ih st1 st2 h
    constructor
    · rw [d2, d1]
      simp [List.append_assoc]
    · rw [e2, e1]
      simp [List.append_assoc]

/-- A job list appends exactly its matching paths. -/
theorem processJobs_downloads (sp : Path) :
    ∀ (js : List JobR) (st : DAState) (st2 : DAState),
      processJobs sp st js = some st2 →
      st2.downloads = st.downloads ++ js.flatMap (specJobPaths sp) ∧
      st2.encounters.map (fun e => e.1) =
        st.encounters.map (fun e => e.1) ++ js.flatMap (specJobPaths sp) := by
  intro js
  induction js with
  | nil =>
    intro st st2 h
    obtain rfl : st = st2 := by simpa [processJobs] using h
    simp
  | cons j rest ih =>
    intro st st2 h
    rw [processJobs_cons, Option.bind_eq_some] at h
    obtain ⟨st1, h1, h⟩ := h
    obtain ⟨d1, e1⟩ := processSuites_downloads sp j.jname j.suites st st1 h1
    obtain ⟨d2, e2⟩ := ih st1 st2 h
    constructor
    · rw [d2, d1]
      simp [specJobPaths, List.append_assoc]
    · rw [e2, e1]
      simp [specJobPaths, List.append_assoc]

/-- C6: a run downloads exactly the artifacts that lie in a suite named
`Tests Suite` and whose computed filename ends in `.logcat` or `.zip`,
each saved under its job-named directory, in the literal fan-out order;
no other artifact is downloaded. -/
theorem download_selection_characterization (jobs : List JobR) (sp : Path) (fs0 : FS)
    (st : DAState) (h : download_artifacts jobs sp fs0 = some st) :
    st.downloads = specDownloadedPaths sp jobs := by
  have hd := (processJobs_downloads sp jobs
    { fs := fs0, logcat_paths := [], downloads := [], encounters := [] } st h).1
  simpa [specDownloadedPaths] using hd

/-- Witness: the example job downloads exactly its zip and logcat
artifacts. -/
theorem download_selection_characterization_witness :
    ∃ st, download_artifacts [exJob] exSave [] = some st ∧
      st.downloads = specDownloadedPaths exSave [exJob] := by
  rcases hd : download_artifacts [exJob] exSave [] with - | st
  · exact absurd hd (by decide)
  · exact ⟨st, rfl, download_selection_characterization [exJob] exSave [] st hd⟩

/-! ### The recorded log-path list -/

/-- One artifact listing preserves the downloader invariant. -/
theorem processArtifacts_inv (sp jn : Path) :
    ∀ (arts : List ArtifactR) (v : Bool) (st : DAState) (v2 : Bool) (st2 : DAState),
      processArtifacts sp jn v st arts = some (v2, st2) → daInv st → daInv st2 := by
  intro arts
  induction arts with
  | nil =>
    intro v st v2 st2 h hi
    obtain ⟨rfl, rfl⟩ : v = v2 ∧ st = st2 := by simpa [processArtifacts] using h
    exact hi
  | cons a rest ih =>
    intro v st v2 st2 h hi
    by_cases hz : endsWithL dotZip (computedFilename a) = true
    · rcases hu : unzip_and_copy
          (fsWrite st.fs (joinPath (joinPath sp jn) (computedFilename a)) a.content)
          a.zipEntries (joinPath (joinPath sp jn) (computedFilename a)) with - | ⟨fs2, b⟩
      · rw [processArtifacts_cons_zip_fail sp jn v st a rest hz hu] at h
        cases h
      · rw [processArtifacts_cons_zip sp jn v st a rest fs2 b hz hu] at h
        refine ih b _ v2 st2 h ⟨?_, ?_⟩
        · rw [hi.1]
          by_cases hc : (v && endsWithL dotLogcat (computedFilename a)) = true
          · simp [hc, List.filter_append, List.filter_cons]
          · rw [Bool.not_eq_true] at hc
            simp [hc, List.filter_append, List.filter_cons]
        · intro p hp
          by_cases hc : (v && endsWithL dotLogcat (computedFilename a)) = true
          · rw [if_pos hc] at hp
            rcases List.mem_append.1 hp with hp1 | hp2
            · exact hi.2 p hp1
            · have : p = joinPath (joinPath sp jn) (computedFilename a) := by simpa using hp2
              subst this
              exact endsWithL_joinPath dotLogcat _ _ (Bool.and_eq_true .. ▸ hc).2
          · rw [Bool.not_eq_true] at hc
            rw [if_neg (by simp [hc])] at hp
            exact hi.2 p hp
    · rw [Bool.not_eq_true] at hz
      by_cases hl : endsWithL dotLogcat (computedFilename a) = true
      · rw [processArtifacts_cons_logcat sp jn v st a rest hl hz] at h
        refine ih v _ v2 st2 h ⟨?_, ?_⟩
        · rw [hi.1]
          cases v with
          | true => simp [List.filter_append, List.filter_cons, hl]
          | false => simp [List.filter_append, List.filter_cons, hl]
        · intro p hp
          cases v with
          | true =>
            simp only [if_true, ite_true] at hp
            rcases List.mem_append.1 hp with hp1 | hp2
            · exact hi.2 p hp1
            · have : p = joinPath (joinPath sp jn) (computedFilename a) := by simpa using hp2
              subst this
              exact endsWithL_joinPath dotLogcat _ _ hl
          | false =>
            simp only [if_false, ite_false] at hp
            exact hi.2 p hp
      · rw [Bool.not_eq_true] at hl
        rw [processArtifacts_cons_nomatch sp jn v st a rest hl hz] at h
        exact ih v st v2 st2 h hi

/-- One test preserves the downloader invariant. -/
theorem processTest_inv (sp jn : Path) (st : DAState) (t : TestR) (st3 : DAState)
    (h : processTest sp jn st t = some st3) (hi : daInv st) : daInv st3 := by
  rw [processTest_eq] at h
  simp only [Option.bind_eq_some, Option.map_eq_some'] at h
  obtain ⟨⟨v1, st1⟩, h1, ⟨vb, st2⟩, h2, ⟨vc, stc⟩, h3, rfl⟩ := h
  exact processArtifacts_inv sp jn t.logArtifacts true st2 vc stc h3
    (processArtifacts_inv sp jn t.screenshotArtifacts true st1 vb st2 h2
      (processArtifacts_inv sp jn t.fileArtifacts true st v1 st1 h1 hi))

/-- A test list preserves the downloader invariant. -/
theorem processTests_inv (sp jn : Path) :
    ∀ (ts : List TestR) (st : DAState) (st2 : DAState),
      processTests sp jn st ts = some st2 → daInv st → daInv st2 := by
  intro ts
  induction ts with
  | nil =>
    intro st st2 h hi
    obtain rfl : st = st2 := by simpa [processTests] using h
    exact hi
  | cons t rest ih =>
    intro st st2 h hi
    rw [processTests_cons, Option.bind_eq_some] at h
    obtain ⟨st1, h1, h⟩ := h
    exact ih st1 st2 h (processTest_inv sp jn st t st1 h1 hi)

/-- One suite preserves the downloader invariant. -/
theorem processSuite_inv (sp jn : Path) (st : DAState) (s : SuiteR) (st2 : DAState)
    (h : processSuite sp jn st s = some st2) (hi : daInv st) : daInv st2 := by
  unfold processSuite at h
  by_cases hn : s.sname = testsSuiteName
  · rw [if_pos hn] at h
    exact processTests_inv sp jn s.tests st st2 h hi
  · rw [if_neg hn] at h
    obtain rfl : st = st2 := by simpa using h
    exact hi

/-- A suite list preserves the downloader invariant. -/
theorem processSuites_inv (sp jn : Path) :
    ∀ (ss : List SuiteR) (st : DAState) (st2 : DAState),
      processSuites sp jn st ss = some st2 → daInv st → daInv st2 := by
  intro ss
  induction ss with
  | nil =>
    intro st st2 h hi
    obtain rfl : st = st2 := by simpa [processSuites] using h
    exact hi
  | cons su rest ih =>
    intro st st2 h hi
    rw [processSuites_cons, Option.bind_eq_some] at h
    obtain ⟨st1, h1, h⟩ := h
    exact ih st1 st2 h (processSuite_inv sp jn st su st1 h1 hi)

/-- A job list preserves the downloader invariant. -/
theorem processJobs_inv (sp : Path) :
    ∀ (js : List JobR) (st : DAState) (st2 : DAState),
      processJobs sp st js = some st2 → daInv st → daInv st2 := by
  intro js
  induction js with
  | nil =>
    intro st st2 h hi
    obtain rfl : st = st2 := by simpa [processJobs] using h
    exact hi
  | cons j rest ih =>
    intro st st2 h hi
    rw [processJobs_cons, Option.bind_eq_some] at h
    obtain ⟨st1, h1, h⟩ := h
    exact ih st1 st2 h (processSuites_inv sp j.jname j.suites st st1 h1 hi)

/-- C7: the log-path list returned by `download_artifacts` consists
exactly of the encounter-ordered paths of matching artifacts that were
logcat files and were met while the governing validity flag was true;
every recorded path ends in `.logcat` and never in `.zip`; and the whole
list is an in-order sublist of the matching artifacts of `Tests Suite`
suites, so a job without matching artifacts contributes no entry. -/
theorem logcat_path_list_properties (jobs : List JobR) (sp : Path) (fs0 : FS)
    (st : DAState) (h : download_artifacts jobs sp fs0 = some st) :
    st.logcat_paths =
        (st.encounters.filter (fun e => e.2.1 && e.2.2)).map (fun e => e.1) ∧
    (∀ p ∈ st.logcat_paths,
      endsWithL dotLogcat p = true ∧ endsWithL dotZip p = false) ∧
    List.Sublist st.logcat_paths (specDownloadedPaths sp jobs) := by
  have hinv : daInv st := processJobs_inv sp jobs
    { fs := fs0, logcat_paths := [], downloads := [], encounters := [] } st h
    ⟨by simp, by simp⟩
  have henc := (processJobs_downloads sp jobs
    { fs := fs0, logcat_paths := [], downloads := [], encounters := [] } st h).2
  refine ⟨hinv.1, fun p hp => ⟨hinv.2 p hp, not_zip_of_logcat p (hinv.2 p hp)⟩, ?_⟩
  rw [hinv.1]
  have hsub : List.Sublist
      ((st.encounters.filter (fun e => e.2.1 && e.2.2)).map (fun e => e.1))
      (st.encounters.map (fun e => e.1)) :=
    List.Sublist.map (fun e => e.1) (List.filter_sublist st.encounters)
  rw [henc] at hsub
  simpa [specDownloadedPaths] using hsub

/-- Witness: the example job records exactly the logcat artifact of its
LOG category. -/
theorem logcat_path_list_properties_witness :
    ∃ st, download_artifacts [exJob] exSave [] = some st ∧
      st.logcat_paths =
        (st.encounters.filter (fun e => e.2.1 && e.2.2)).map (fun e => e.1) ∧
      (∀ p ∈ st.logcat_paths,
        endsWithL dotLogcat p = true ∧ endsWithL dotZip p = false) ∧
      List.Sublist st.logcat_paths (specDownloadedPaths exSave [exJob]) := by
  rcases hd : download_artifacts [exJob] exSave [] with - | st
  · exact absurd hd (by decide)
  · exact ⟨st, rfl, logcat_path_list_properties [exJob] exSave [] st hd⟩

/-! ### The validity flag is per category, not per test -/

/-- C1 counterexample: in the example job the FILE-category zip artifact
reports an invalid extraction result (its report contains the skipped
marker), yet the logcat artifact of the later LOG category of the same
test is still recorded in the log-path list — so a later category's
recording does not depend on the flag state mutated by an earlier
category, contradicting the claim. -/
theorem validity_flag_cross_category_counterexample :
    containsL skippedMarker "<s skipped=\"2\"/>".toList = true ∧
    (unzip_and_copy (fsWrite [] "/s/job1/FILE_ca.zip".toList exZipArt.content)
        exZipArt.zipEntries "/s/job1/FILE_ca.zip".toList).map (fun r => r.2) =
      some false ∧
    (download_artifacts [exJob] exSave []).map (fun st => st.logcat_paths) =
      some ["/s/job1/LOG_lc.logcat".toList] := by
  refine ⟨by decide, by decide, by decide⟩

/-- C1 amended: the validity flag is re-initialised to true at the start
of each artifact category (the assignment sits inside the category loop
of `download_artifacts`), so (1) a zip whose extraction reports invalid
forces the flag false only for the remainder of the same category
listing, (2) while the flag is false a logcat artifact is downloaded but
not recorded, and (3) the LOG category is always processed from an
initial flag of true, whatever flag value the earlier categories of the
same test ended with. -/
theorem validity_flag_per_category (sp jn : Path) :
    (∀ (v : Bool) (st : DAState) (a : ArtifactR) (rest : List ArtifactR) (fs2 : FS),
      endsWithL dotZip (computedFilename a) = true →
      unzip_and_copy
          (fsWrite st.fs (joinPath (joinPath sp jn) (computedFilename a)) a.content)
          a.zipEntries (joinPath (joinPath sp jn) (computedFilename a)) = some (fs2, false) →
      processArtifacts sp jn v st (a :: rest) =
        processArtifacts sp jn false
          { fs := fs2
            logcat_paths :=
              if v && endsWithL dotLogcat (computedFilename a) then
                st.logcat_paths ++ [joinPath (joinPath sp jn) (computedFilename a)]
              else st.logcat_paths
            downloads := st.downloads ++ [joinPath (joinPath sp jn) (computedFilename a)]
            encounters := st.encounters ++ [(joinPath (joinPath sp jn) (computedFilename a),
              v, endsWithL dotLogcat (computedFilename a))] } rest) ∧
    (∀ (st : DAState) (a : ArtifactR) (rest : List ArtifactR),
      endsWithL dotLogcat (computedFilename a) = true →
      endsWithL dotZip (computedFilename a) = false →
      processArtifacts sp jn false st (a :: rest) =
        processArtifacts sp jn false
          { fs := fsWrite st.fs (joinPath (joinPath sp jn) (computedFilename a)) a.content
            logcat_paths := st.logcat_paths
            downloads := st.downloads ++ [joinPath (joinPath sp jn) (computedFilename a)]
            encounters := st.encounters ++ [(joinPath (joinPath sp jn) (computedFilename a),
              false, true)] } rest) ∧
    (∀ (st : DAState) (t : TestR) (v1 v2 : Bool) (st1 st2 : DAState),
      processArtifacts sp jn true st t.fileArtifacts = some (v1, st1) →
      processArtifacts sp jn true st1 t.screenshotArtifacts = some (v2, st2) →
      processTest sp jn st t =
        (processArtifacts sp jn true st2 t.logArtifacts).map (fun r => r.2)) := by
  refine ⟨?_, ?_, ?_⟩
  · intro v st a rest fs2 hz hu
    exact processArtifacts_cons_zip sp jn v st a rest fs2 false hz hu
  · intro st a rest hl hz
    rw [processArtifacts_cons_logcat sp jn false st a rest hl hz]
    simp
  · intro st t v1 v2 st1 st2 h1 h2
    simp [processTest_eq, h1, h2]

/-- Witness for the per-category amendment: an unrecorded logcat under a
false flag, and a LOG category entered with flag true after the earlier
categories of the example test. -/
theorem validity_flag_per_category_witness :
    (processArtifacts exSave "job1".toList false
        { fs := [], logcat_paths := [], downloads := [], encounters := [] } [exLogArt] =
      processArtifacts exSave "job1".toList false
        { fs := fsWrite [] (joinPath (joinPath exSave "job1".toList)
              (computedFilename exLogArt)) exLogArt.content
          logcat_paths := []
          downloads := [joinPath (joinPath exSave "job1".toList) (computedFilename exLogArt)]
          encounters := [(joinPath (joinPath exSave "job1".toList)
            (computedFilename exLogArt), false, true)] } []) ∧
    (∃ (v1 : Bool) (st1 : DAState),
      processArtifacts exSave "job1".toList true
          { fs := [], logcat_paths := [], downloads := [], encounters := [] }
          exTest.fileArtifacts = some (v1, st1) ∧
      processArtifacts exSave "job1".toList true st1 exTest.screenshotArtifacts =
        some (true, st1) ∧
      processTest exSave "job1".toList
          { fs := [], logcat_paths := [], downloads := [], encounters := [] } exTest =
        (processArtifacts exSave "job1".toList true st1 exTest.logArtifacts).map
          (fun r => r.2)) := by
  constructor
  · exact (validity_flag_per_category exSave "job1".toList).2.1
      ⟨[], [], [], []⟩ exLogArt [] (by decide) (by decide)
  · rcases hA : processArtifacts exSave "job1".toList true
        { fs := [], logcat_paths := [], downloads := [], encounters := [] }
        exTest.fileArtifacts with - | ⟨v1, st1⟩
    · exact absurd hA (by decide)
    · have hB : processArtifacts exSave "job1".toList true st1 exTest.screenshotArtifacts =
          some (true, st1) := by
        show processArtifacts exSave "job1".toList true st1 [] = some (true, st1)
        simp [processArtifacts]
      exact ⟨v1, st1, rfl, hB,
        (validity_flag_per_category exSave "job1".toList).2.2
          { fs := [], logcat_paths := [], downloads := [], encounters := [] }
          exTest v1 true st1 st1 hA hB⟩

/-! ### The whole-word rewrite -/

/-- The scanner result does not depend on the fuel, as long as the fuel
covers the string length. -/
theorem reSubTSAux_fuel (repl : List Char) :
    ∀ (n : Nat) (s : List Char) (fuel1 fuel2 : Nat) (prev : Option Char),
      s.length ≤ n → s.length ≤ fuel1 → s.length ≤ fuel2 →
      reSubTSAux repl fuel1 prev s = reSubTSAux repl fuel2 prev s := by
  intro n
  induction n with
  | zero =>
    intro s fuel1 fuel2 prev hn h1 h2
    obtain rfl : s = [] := List.length_eq_zero.1 (Nat.le_zero.1 hn)
    cases fuel1 <;> cases fuel2 <;> rfl
  | succ n ihn =>
    intro s fuel1 fuel2 prev hn h1 h2
    cases s with
    | nil => cases fuel1 <;> cases fuel2 <;> rfl
    | cons c rest =>
      have hr : rest.length + 1 = (c :: rest).length := rfl
      cases fuel1 with
      | zero => exact absurd h1 (by simp)
      | succ f1 =>
        cases fuel2 with
        | zero => exact absurd h2 (by simp)
        | succ f2 =>
          simp only [reSubTSAux]
          by_cases hm : tsMatch prev (c :: rest) = true
          · rw [if_pos hm, if_pos hm]
            have hd : ((c :: rest).drop tsToken.length).length ≤ n := by
              rw [List.length_drop]
              have : (c :: rest).length - tsToken.length ≤ (c :: rest).length - 1 :=
                Nat.sub_le_sub_left (by decide) _
              omega
            have hd1 : ((c :: rest).drop tsToken.length).length ≤ f1 := by
              rw [List.length_drop]
              have : (c :: rest).length - tsToken.length ≤ (c :: rest).length - 1 :=
                Nat.sub_le_sub_left (by decide) _
              omega
            have hd2 : ((c :: rest).drop tsToken.length).length ≤ f2 := by
              rw [List.length_drop]
              have : (c :: rest).length - tsToken.length ≤ (c :: rest).length - 1 :=
                Nat.sub_le_sub_left (by decide) _
              omega
            rw [ihn _ f1 f2 _ hd hd1 hd2]
          · rw [if_neg hm, if_neg hm]
            have hrn : rest.length ≤ n := by
              have := hn
              simp only [List.length_cons] at this
              omega
            have hr1 : rest.length ≤ f1 := by
              have := h1
              simp only [List.length_cons] at this
              omega
            have hr2 : rest.length ≤ f2 := by
              have := h2
              simp only [List.length_cons] at this
              omega
            rw [ihn rest f1 f2 (some c) hrn hr1 hr2]

/-- A Boolean test that starts with a list recovers it as a take. -/
theorem startsWithL_take (p l : List Char) (h : startsWithL p l = true) :
    l.take p.length = p := by
  rw [startsWithL_iff] at h
  obtain ⟨t, rfl⟩ := h
  exact List.take_left p t

/-- The scanner on the empty string. -/
theorem reSubGo_nil (repl : List Char) (prev : Option Char) :
    reSubGo repl prev [] = [] := rfl

/-- The scanner on a match: emit the replacement and continue after the
token, with the token's last letter as context. -/
theorem reSubGo_match (repl : List Char) (prev : Option Char) (c : Char) (rest : List Char)
    (h : tsMatch prev (c :: rest) = true) :
    reSubGo repl prev (c :: rest) =
      repl ++ reSubGo repl (some 'g') ((c :: rest).drop tsToken.length) := by
  have hsw : startsWithL tsToken (c :: rest) = true := by
    have h2 := h
    simp only [tsMatch, Bool.and_eq_true] at h2
    exact h2.1.2
  have hlast : ((c :: rest).take tsToken.length).getLastD c = 'g' := by
    rw [startsWithL_take tsToken (c :: rest) hsw]
    rfl
  show reSubTSAux repl (c :: rest).length prev (c :: rest) = _
  rw [show (c :: rest).length = rest.length + 1 from rfl]
  simp only [reSubTSAux, h, if_true, ite_true, hlast]
  congr 1
  have hd1 : ((c :: rest).drop tsToken.length).length ≤ rest.length := by
    have h12 : (c :: rest).length - tsToken.length ≤ (c :: rest).length - 1 :=
      Nat.sub_le_sub_left (by decide) _
    rw [List.length_drop]
    simp only [List.length_cons] at h12 ⊢
    omega
  exact reSubTSAux_fuel repl ((c :: rest).drop tsToken.length).length _ rest.length _
    (some 'g') le_rfl hd1 le_rfl

/-- The scanner on a non-match: copy one character. -/
theorem reSubGo_nomatch (repl : List Char) (prev : Option Char) (c : Char) (rest : List Char)
    (h : tsMatch prev (c :: rest) = false) :
    reSubGo repl prev (c :: rest) = c :: reSubGo repl (some c) rest := by
  show reSubTSAux repl (c :: rest).length prev (c :: rest) = _
  rw [show (c :: rest).length = rest.length + 1 from rfl]
  simp only [reSubTSAux, h, if_false, ite_false]
  rfl

/-- No match can start at a non-word character. -/
theorem tsMatch_false_of_nonword (prev : Option Char) (c : Char) (rest : List Char)
    (h : isWordChar c = false) : tsMatch prev (c :: rest) = false := by
  have htok : tsToken = 'T' :: "estShopping".toList := by decide
  have hne : ('T' == c) = false := by
    rw [beq_eq_false_iff_ne]
    intro hc
    rw [← hc] at h
    exact absurd h (by decide)
  simp [tsMatch, htok, startsWithL, hne]

/-- No match can start right after a word character. -/
theorem tsMatch_false_of_word_prev (d : Char) (s : List Char) (h : isWordChar d = true) :
    tsMatch (some d) s = false := by
  simp [tsMatch, wordBreakBefore, h]

/-- The last element of a non-empty list is a member. -/
theorem mem_of_getLast?_eq (l : List Char) (a : Char) (h : l.getLast? = some a) : a ∈ l := by
  have h2 : a ∈ l.getLast? := by rw [h]; rfl
  obtain ⟨hne, rfl⟩ := List.mem_getLast?_eq_getLast h2
  exact List.getLast_mem hne

/-- Emitting a run shifts the context to its last character. -/
theorem shiftPrev_cons (prev : Option Char) (c : Char) (r : List Char) :
    shiftPrev (some c) r = shiftPrev prev (c :: r) := by
  cases r with
  | nil => simp [shiftPrev]
  | cons x xs =>
    have hg : (x :: xs).getLast? = some ((x :: xs).getLast (List.cons_ne_nil x xs)) :=
      List.getLast?_eq_getLast_of_ne_nil (List.cons_ne_nil x xs)
    unfold shiftPrev
    rw [List.getLast?_cons_cons, hg]

/-- The scanner copies a run of non-word characters verbatim. -/
theorem reSubGo_nonword_run (repl : List Char) :
    ∀ (r t : List Char) (prev : Option Char),
      (∀ d ∈ r, isWordChar d = false) →
      reSubGo repl prev (r ++ t) = r ++ reSubGo repl (shiftPrev prev r) t := by
  intro r
  induction r with
  | nil =>
    intro t prev h
    simp [shiftPrev]
  | cons c r2 ih =>
    intro t prev h
    have hc : isWordChar c = false := h c (by simp)
    have hm : tsMatch prev (c :: (r2 ++ t)) = false := tsMatch_false_of_nonword prev c _ hc
    rw [List.cons_append, reSubGo_nomatch repl prev c (r2 ++ t) hm,
      ih t (some c) (fun d hd => h d (by simp [hd])), shiftPrev_cons prev c r2]
    rfl

/-- After a word character, the scanner copies a run of word characters
verbatim (no boundary can open inside a word). -/
theorem reSubGo_word_run_inner (repl : List Char) :
    ∀ (r t : List Char) (d : Char),
      isWordChar d = true → (∀ x ∈ r, isWordChar x = true) →
      reSubGo repl (some d) (r ++ t) = r ++ reSubGo repl (shiftPrev (some d) r) t := by
  intro r
  induction r with
  | nil =>
    intro t d hd h
    simp [shiftPrev]
  | cons c r2 ih =>
    intro t d hd h
    have hc : isWordChar c = true := h c (by simp)
    have hm : tsMatch (some d) (c :: (r2 ++ t)) = false := tsMatch_false_of_word_prev d _ hd
    rw [List.cons_append, reSubGo_nomatch repl (some d) c (r2 ++ t) hm,
      ih t c hc (fun x hx => h x (by simp [hx])), shiftPrev_cons (some d) c r2]
    rfl

/-- The head of a `dropWhile` fails the predicate. -/
theorem head?_dropWhile_not (p : Char → Bool) :
    ∀ (l : List Char) (x : Char), (l.dropWhile p).head? = some x → p x = false := by
  intro l
  induction l with
  | nil => intro x h; cases h
  | cons a as ih =>
    intro x h
    by_cases ha : p a = true
    · rw [List.dropWhile_cons_of_pos ha] at h
      exact ih x h
    · rw [List.dropWhile_cons_of_neg ha] at h
      obtain rfl : a = x := by simpa using h
      exact Bool.eq_false_iff.mpr ha

/-- A maximal word run different from the token admits no match at its
start: either the token is not a prefix at all, or the run continues with
a word character and the closing boundary fails. -/
theorem tsMatch_false_word_run (prev : Option Char) (r t : List Char)
    (hw : ∀ x ∈ r, isWordChar x = true) (hne : r ≠ tsToken)
    (ht : ∀ x, t.head? = some x → isWordChar x = false) :
    tsMatch prev (r ++ t) = false := by
  by_cases hsw : startsWithL tsToken (r ++ t) = true
  · have htake : (r ++ t).take tsToken.length = tsToken := startsWithL_take _ _ hsw
    by_cases hlen : tsToken.length ≤ r.length
    · rw [List.take_append_eq_append_take, Nat.sub_eq_zero_of_le hlen, List.take_zero,
        List.append_nil] at htake
      rcases Nat.lt_or_ge tsToken.length r.length with hlt | hge
      · have hafter : afterBreakOk (r ++ t) = false := by
          have hdrop : (r ++ t).drop tsToken.length = r.drop tsToken.length ++ t := by
            rw [List.drop_append_eq_append_drop, Nat.sub_eq_zero_of_le (le_of_lt hlt),
              List.drop_zero]
          unfold afterBreakOk
          rw [hdrop]
          cases hd : r.drop tsToken.length with
          | nil =>
            have h0 : r.length - tsToken.length = 0 := by
              rw [← List.length_drop, hd]
              rfl
            omega
          | cons y ys =>
            have hy : y ∈ r := List.mem_of_mem_drop (hd ▸ List.mem_cons_self y ys)
            simp [hw y hy]
        unfold tsMatch
        rw [hafter]
        simp
      · have hr : r = tsToken := by
          have heq : r.length = tsToken.length := Nat.le_antisymm hge hlen
          rw [← htake, ← heq, List.take_length]
        exact absurd hr hne
    · exfalso
      push_neg at hlen
      have hdt : tsToken.drop r.length = t.take (tsToken.length - r.length) := by
        conv_lhs => rw [← htake]
        rw [List.drop_take, List.drop_left]
      have hpos : 0 < tsToken.length - r.length := by omega
      have hlen2 : (tsToken.drop r.length).length = tsToken.length - r.length :=
        List.length_drop r.length tsToken
      cases hd : tsToken.drop r.length with
      | nil =>
        rw [hd] at hlen2
        simp at hlen2
        omega
      | cons y ys =>
        have hy : y ∈ tsToken := List.mem_of_mem_drop (hd ▸ List.mem_cons_self y ys)
        have hall : ∀ x ∈ tsToken, isWordChar x = true := by decide
        have hyw : isWordChar y = true := hall y hy
        rw [hd] at hdt
        cases htc : t with
        | nil =>
          rw [htc] at hdt
          simp at hdt
        | cons z zs =>
          cases hk : tsToken.length - r.length with
          | zero => omega
          | succ k =>
            rw [htc, hk] at hdt
            simp only [List.take_succ_cons] at hdt
            injection hdt with h1 h2
            have hzf : isWordChar z = false := ht z (by rw [htc]; rfl)
            rw [← h1, hyw] at hzf
            cases hzf
  · unfold tsMatch
    rw [Bool.not_eq_true] at hsw
    rw [hsw]
    simp

/-- A whole-word occurrence of the token at a boundary does match. -/
theorem tsMatch_true_token (prev : Option Char) (t : List Char)
    (hwb : wordBreakBefore prev = true)
    (ht : ∀ x, t.head? = some x → isWordChar x = false) :
    tsMatch prev (tsToken ++ t) = true := by
  unfold tsMatch
  rw [hwb]
  have hsw : startsWithL tsToken (tsToken ++ t) = true := by
    rw [startsWithL_iff]
    exact List.prefix_append tsToken t
  rw [hsw]
  have hab : afterBreakOk (tsToken ++ t) = true := by
    unfold afterBreakOk
    rw [List.drop_left]
    cases htc : t with
    | nil => rfl
    | cons z zs =>
      have hz := ht z (by rw [htc]; rfl)
      simp [hz]
  rw [hab]
  rfl

/-- The scanner on a match, for any non-empty subject. -/
theorem reSubGo_match2 (repl : List Char) (prev : Option Char) (s : List Char)
    (hne : s ≠ []) (h : tsMatch prev s = true) :
    reSubGo repl prev s = repl ++ reSubGo repl (some 'g') (s.drop tsToken.length) := by
  cases s with
  | nil => exact absurd rfl hne
  | cons c rest => exact reSubGo_match repl prev c rest h

/-- After a non-empty run of non-word characters the boundary is open. -/
theorem wordBreak_shiftPrev_nonword (prev : Option Char) (c : Char) (r : List Char)
    (h : ∀ d ∈ c :: r, isWordChar d = false) :
    wordBreakBefore (shiftPrev prev (c :: r)) = true := by
  have hg : (c :: r).getLast? = some ((c :: r).getLast (List.cons_ne_nil c r)) :=
    List.getLast?_eq_getLast_of_ne_nil (List.cons_ne_nil c r)
  unfold shiftPrev
  rw [hg]
  have hm : (c :: r).getLast (List.cons_ne_nil c r) ∈ c :: r := List.getLast_mem _
  simp [wordBreakBefore, h _ hm]

/-- Unfolding of `splitRuns` on a cons. -/
theorem splitRuns_cons (c : Char) (rest : List Char) :
    splitRuns (c :: rest) =
      (isWordChar c, c :: rest.takeWhile (fun d => isWordChar d == isWordChar c)) ::
        splitRuns (rest.dropWhile (fun d => isWordChar d == isWordChar c)) := by
  simp only [splitRuns]

/-- Unfolding of the spec-side rewrite on a cons: the first maximal run is
replaced exactly when it is a word run equal to the token. -/
theorem specWholeWordRewrite_cons (repl : List Char) (c : Char) (rest : List Char) :
    specWholeWordRewrite repl (c :: rest) =
      (if isWordChar c = true ∧
          (c :: rest.takeWhile (fun d => isWordChar d == isWordChar c)) = tsToken then repl
        else c :: rest.takeWhile (fun d => isWordChar d == isWordChar c)) ++
        specWholeWordRewrite repl (rest.dropWhile (fun d => isWordChar d == isWordChar c)) := by
  unfold specWholeWordRewrite
  rw [splitRuns_cons]
  simp [List.flatMap_cons]

/-- Main equivalence, by strong induction on the subject length: from any
open boundary (or before a non-word character) the scanner agrees with
the run-based description of the whole-word rewrite. -/
theorem reSubGo_spec (repl : List Char) :
    ∀ (n : Nat) (s : List Char) (prev : Option Char),
      s.length ≤ n →
      (wordBreakBefore prev = true ∨ (∀ x, s.head? = some x → isWordChar x = false)) →
      reSubGo repl prev s = specWholeWordRewrite repl s := by
  intro n
  induction n with
  | zero =>
    intro s prev hn hok
    obtain rfl : s = [] := List.length_eq_zero.1 (Nat.le_zero.1 hn)
    rw [reSubGo_nil]
    simp [specWholeWordRewrite, splitRuns]
  | succ n ihn =>
    intro s prev hn hok
    cases s with
    | nil =>
      rw [reSubGo_nil]
      simp [specWholeWordRewrite, splitRuns]
    | cons c rest =>
      have hsplit : c :: rest =
          (c :: rest.takeWhile (fun d => isWordChar d == isWordChar c)) ++
            rest.dropWhile (fun d => isWordChar d == isWordChar c) := by
        rw [List.cons_append, List.takeWhile_append_dropWhile]
      have hrall : ∀ x ∈ c :: rest.takeWhile (fun d => isWordChar d == isWordChar c),
          isWordChar x = isWordChar c := by
        intro x hx
        rcases List.mem_cons.1 hx with rfl | hx2
        · rfl
        · have hb := List.mem_takeWhile_imp hx2
          exact beq_iff_eq.mp hb
      have hthead : ∀ x,
          (rest.dropWhile (fun d => isWordChar d == isWordChar c)).head? = some x →
          (isWordChar x == isWordChar c) = false :=
        fun x hx => head?_dropWhile_not _ rest x hx
      have htlen : (rest.dropWhile (fun d => isWordChar d == isWordChar c)).length ≤ n := by
        have h1 : (rest.dropWhile (fun d => isWordChar d == isWordChar c)).length ≤
            rest.length := (List.dropWhile_sublist _).length_le
        have h2 := hn
        simp only [List.length_cons] at h2
        omega
      rw [specWholeWordRewrite_cons]
      by_cases hw : isWordChar c = true
      · have hwb : wordBreakBefore prev = true := by
          rcases hok with h | h
          · exact h
          · exact absurd (h c rfl) (by simp [hw])
        have hrw : ∀ x ∈ c :: rest.takeWhile (fun d => isWordChar d == isWordChar c),
            isWordChar x = true := fun x hx => (hrall x hx).trans hw
        have hthead2 : ∀ x,
            (rest.dropWhile (fun d => isWordChar d == isWordChar c)).head? = some x →
            isWordChar x = false := by
          intro x hx
          have hne := hthead x hx
          rw [beq_eq_false_iff_ne] at hne
          cases hxw : isWordChar x
          · rfl
          · exact absurd (by rw [hxw, hw]) hne
        by_cases hr : (c :: rest.takeWhile (fun d => isWordChar d == isWordChar c)) = tsToken
        · rw [if_pos ⟨hw, hr⟩]
          conv_lhs => rw [hsplit, hr]
          have hm : tsMatch prev
              (tsToken ++ rest.dropWhile (fun d => isWordChar d == isWordChar c)) = true :=
            tsMatch_true_token prev _ hwb hthead2
          rw [reSubGo_match2 repl prev _ (by simp [tsToken]) hm, List.drop_left]
          rw [ihn _ (some 'g') htlen (Or.inr hthead2)]
        · rw [if_neg (fun hand => hr hand.2)]
          conv_lhs => rw [hsplit]
          have hm := tsMatch_false_word_run prev
            (c :: rest.takeWhile (fun d => isWordChar d == isWordChar c))
            (rest.dropWhile (fun d => isWordChar d == isWordChar c)) hrw hr hthead2
          rw [List.cons_append] at hm
          rw [List.cons_append, reSubGo_nomatch repl prev c _ hm]
          have hr2w : ∀ x ∈ rest.takeWhile (fun d => isWordChar d == isWordChar c),
              isWordChar x = true := by
            intro x hx
            have hb := List.mem_takeWhile_imp hx
            exact (beq_iff_eq.mp hb).trans hw
          rw [reSubGo_word_run_inner repl
            (rest.takeWhile (fun d => isWordChar d == isWordChar c))
            (rest.dropWhile (fun d => isWordChar d == isWordChar c)) c hw hr2w]
          rw [shiftPrev_cons prev c]
          rw [ihn _ _ htlen (Or.inr hthead2)]
          rw [List.cons_append]
      · have hw2 : isWordChar c = false := Bool.eq_false_iff.mpr hw
        rw [if_neg (fun hand => hw hand.1)]
        conv_lhs => rw [hsplit]
        rw [reSubGo_nonword_run repl _ _ prev (fun d hd => (hrall d hd).trans hw2)]
        have hwb2 : wordBreakBefore (shiftPrev prev
            (c :: rest.takeWhile (fun d => isWordChar d == isWordChar c))) = true :=
          wordBreak_shiftPrev_nonword prev c _ (fun d hd => (hrall d hd).trans hw2)
        rw [ihn _ _ htlen (Or.inl hwb2)]

/-- C3: the rewrite performed by `unzip_and_copy` replaces exactly the
whole-word occurrences of the literal `TestShopping` — the maximal word
runs equal to it — by `"AppiumTest "` followed by the device name, and
leaves every occurrence embedded in a longer word (such as
`TestShoppingCart`) unchanged. -/
theorem rewrite_whole_word_only (deviceName content : List Char) :
    renameTestName deviceName content =
      specWholeWordRewrite (appiumLabel deviceName) content :=
  reSubGo_spec (appiumLabel deviceName) content.length content none le_rfl (Or.inl rfl)

end DeviceFarm
